import Mathlib

/-!
Verification development for `src/lca_v6/misc/rwsem-any.c`, a reader/writer
semaphore stress-test module.  The harness (counters, CHECKA instrumentation,
thread loop bodies, spawn/join bookkeeping, stop flag) is embedded statement
by statement as a small-step transition system over explicit shared state.
The `rw_semaphore` primitive itself (`down_read`, `up_read`, `down_write`,
`up_write`, `downgrade_write`) is a kernel API whose implementation is not
part of this repository; it is modelled from the specification's occupancy
semantics (`0` free, `N > 0` readers, `-1` writer held).
-/

set_option linter.unusedVariables false

namespace RwsemAny

/-- Kinds of test threads spawned by the harness (`reader`, `writer`,
`downgrader` functions in the source). -/
inductive Kind where
  | reader
  | writer
  | downgrader
deriving DecidableEq, Repr

/-- The five global atomic counters of the harness: `readers`, `writers`,
`reads_taken`, `writes_taken`, `downgrades_taken`. -/
inductive CtrId where
  | readers
  | writers
  | reads_taken
  | writes_taken
  | downgrades_taken
deriving DecidableEq, Repr

/-- Atomic instructions of a thread's loop body.  Each constructor corresponds
to one statement of the C source touching shared state: the semaphore calls,
`atomic_inc`/`atomic_dec` on a counter, a `CHECKA(var, val)` check (with the
`__func__` string of the operation it occurs in), and the `sched()` call at
the end of each iteration. -/
inductive Instr where
  | lockRead
  | unlockRead
  | lockWrite
  | unlockWrite
  | downgrade
  | incCtr (c : CtrId)
  | decCtr (c : CtrId)
  | check (c : CtrId) (v : Int) (fn : String)
  | yield
deriving DecidableEq, Repr

/-- Status of a thread: at the `while (atomic_read(&do_stuff))` loop head,
running at instruction index `pc` of its loop body, or exited (its
`complete_and_exit` completion has been signalled). -/
inductive TStatus where
  | atHead
  | running (pc : Nat)
  | done
deriving DecidableEq, Repr

/-- One harness thread: its kind, status, number of completed loop
iterations, and number of `schedule()` calls it has performed. -/
structure Thread where
  kind : Kind
  st : TStatus
  iters : Nat
  yields : Nat
deriving DecidableEq, Repr

/-- Module parameters: `numrd`, `numwr`, `numdg`, `elapse`, `do_sched`. -/
structure Config where
  numrd : Nat
  numwr : Nat
  numdg : Nat
  elapse : Nat
  do_sched : Bool
deriving DecidableEq, Repr

/-- Shared state: the stop flag `do_stuff`, the semaphore occupancy
(modelled from the spec: `0` free, `n > 0` readers held, `-1` writer held),
the five atomic counters, the kernel log of failed checks, and the threads. -/
structure State where
  do_stuff : Bool
  occupancy : Int
  readers : Int
  writers : Int
  reads_taken : Int
  writes_taken : Int
  downgrades_taken : Int
  log : List String
  threads : List Thread
deriving DecidableEq, Repr

/-- Printed name of a counter, as the `#var` token of `CHECKA`. -/
def ctrName : CtrId → String
  | .readers => "readers"
  | .writers => "writers"
  | .reads_taken => "reads_taken"
  | .writes_taken => "writes_taken"
  | .downgrades_taken => "downgrades_taken"

/-- The message `printk`ed by a failing `CHECKA(var, val)` observing `x`:
`"check [%s != %d, == %d] failed in %s"` with `#var`, `val`, `x`, `__func__`. -/
def checkaMsg (var : String) (v x : Int) (fn : String) : String :=
  "check [" ++ var ++ " != " ++ toString v ++ ", == " ++ toString x ++ "] failed in " ++ fn

/-- The `CHECKA(var, val)` macro: reads `x`, and if `x != val` emits the
failure message naming the enclosing function; otherwise emits nothing. -/
def CHECKA (x v : Int) (var fn : String) : List String :=
  if x ≠ v then [checkaMsg var v x fn] else []

/-- dr(): `down_read; atomic_inc(&readers); atomic_inc(&reads_taken);
CHECKA(writers, 0);`. -/
def drCode : List Instr :=
  [.lockRead, .incCtr .readers, .incCtr .reads_taken, .check .writers 0 "dr"]

/-- ur(): `CHECKA(writers, 0); atomic_dec(&readers); up_read;`. -/
def urCode : List Instr :=
  [.check .writers 0 "ur", .decCtr .readers, .unlockRead]

/-- dw(): `down_write; atomic_inc(&writers); atomic_inc(&writes_taken);
CHECKA(writers, 1); CHECKA(readers, 0);`. -/
def dwCode : List Instr :=
  [.lockWrite, .incCtr .writers, .incCtr .writes_taken,
   .check .writers 1 "dw", .check .readers 0 "dw"]

/-- uw(): `CHECKA(writers, 1); CHECKA(readers, 0); atomic_dec(&writers);
up_write;`. -/
def uwCode : List Instr :=
  [.check .writers 1 "uw", .check .readers 0 "uw", .decCtr .writers, .unlockWrite]

/-- dgw(): `CHECKA(writers, 1); CHECKA(readers, 0); atomic_dec(&writers);
atomic_inc(&readers); downgrade_write; atomic_inc(&downgrades_taken);`. -/
def dgwCode : List Instr :=
  [.check .writers 1 "dgw", .check .readers 0 "dgw", .decCtr .writers,
   .incCtr .readers, .downgrade, .incCtr .downgrades_taken]

/-- Loop body of each thread kind, with the `static inline` operations
`dr`/`ur`/`dw`/`uw`/`dgw` and `sched` inlined statement by statement:
a reader runs `dr(); ur(); sched();`, a writer `dw(); uw(); sched();`,
a downgrader `dw(); dgw(); ur(); sched();`. -/
def body : Kind → List Instr
  | .reader =>
      [.lockRead, .incCtr .readers, .incCtr .reads_taken, .check .writers 0 "dr",
       .check .writers 0 "ur", .decCtr .readers, .unlockRead, .yield]
  | .writer =>
      [.lockWrite, .incCtr .writers, .incCtr .writes_taken,
       .check .writers 1 "dw", .check .readers 0 "dw",
       .check .writers 1 "uw", .check .readers 0 "uw", .decCtr .writers, .unlockWrite, .yield]
  | .downgrader =>
      [.lockWrite, .incCtr .writers, .incCtr .writes_taken,
       .check .writers 1 "dw", .check .readers 0 "dw",
       .check .writers 1 "dgw", .check .readers 0 "dgw", .decCtr .writers,
       .incCtr .readers, .downgrade, .incCtr .downgrades_taken,
       .check .writers 0 "ur", .decCtr .readers, .unlockRead, .yield]

/-- Read-hold delta of one instruction: `down_read` gains a read hold,
`up_read` releases it, `downgrade_write` converts the caller into a reader. -/
def rdelta : Instr → Int
  | .lockRead => 1
  | .unlockRead => -1
  | .downgrade => 1
  | _ => 0

/-- Write-hold delta of one instruction. -/
def wdelta : Instr → Int
  | .lockWrite => 1
  | .unlockWrite => -1
  | .downgrade => -1
  | _ => 0

/-- Delta of one instruction on counter `c`. -/
def cdelta (c : CtrId) : Instr → Int
  | .incCtr c' => if c' = c then 1 else 0
  | .decCtr c' => if c' = c then -1 else 0
  | _ => 0

/-- Sum of a per-instruction delta over a code fragment. -/
def balOf (f : Instr → Int) (code : List Instr) : Int := (code.map f).sum

/-- The instructions a thread has already executed in its current loop
iteration (empty at the loop head and after exit). -/
def prefixOf (t : Thread) : List Instr :=
  match t.st with
  | .running pc => (body t.kind).take pc
  | _ => []

/-- Balance of delta `f` over the thread's current iteration prefix. -/
def pBal (f : Instr → Int) (t : Thread) : Int := balOf f (prefixOf t)

/-- Cumulative contribution of a thread to counter `c`: its completed
iterations times the whole-body balance, plus the current prefix balance. -/
def cBal (c : CtrId) (t : Thread) : Int :=
  t.iters * balOf (cdelta c) (body t.kind) + pBal (cdelta c) t

/-- Sum of a per-thread quantity over a thread list. -/
def sumB (f : Thread → Int) (l : List Thread) : Int := (l.map f).sum

/-- Number of read holds over all threads. -/
def sumRd (l : List Thread) : Int := sumB (pBal rdelta) l

/-- Number of write holds over all threads. -/
def sumWr (l : List Thread) : Int := sumB (pBal wdelta) l

/-- Total contribution of all threads to counter `c`. -/
def sumC (c : CtrId) (l : List Thread) : Int := sumB (cBal c) l

/-- Value of counter `c` in a state (the `atomic_read`). -/
def readCtr (s : State) : CtrId → Int
  | .readers => s.readers
  | .writers => s.writers
  | .reads_taken => s.reads_taken
  | .writes_taken => s.writes_taken
  | .downgrades_taken => s.downgrades_taken

/-- Add `d` to counter `c` (the `atomic_inc`/`atomic_dec`). -/
def addCtr (s : State) : CtrId → Int → State
  | .readers, d => { s with readers := s.readers + d }
  | .writers, d => { s with writers := s.writers + d }
  | .reads_taken, d => { s with reads_taken := s.reads_taken + d }
  | .writes_taken, d => { s with writes_taken := s.writes_taken + d }
  | .downgrades_taken, d => { s with downgrades_taken := s.downgrades_taken + d }

/-- Advance a thread past the instruction at `pc`: to the next instruction,
or back to the loop head (one more completed iteration) after the last one. -/
def advance (t : Thread) (pc : Nat) : Thread :=
  if pc + 1 < (body t.kind).length then { t with st := .running (pc + 1) }
  else { t with st := .atHead, iters := t.iters + 1 }

/-- Effect of thread `i` (currently `t`, at `pc`) executing one instruction.
`lockRead` is modelled from the spec: it blocks (no step) unless no writer
holds (`occupancy ≥ 0`) and then increments occupancy; `lockWrite` blocks
unless the lock is free (`occupancy = 0`) and takes it to the writer-held
sentinel `-1`; `unlockWrite` returns it to free; `downgrade` atomically
converts writer-held `-1` into one-reader-held `1` in a single step. -/
def execInstr (cfg : Config) (s : State) (i : Nat) (t : Thread) (pc : Nat) : Instr → Option State
  | .lockRead =>
      if 0 ≤ s.occupancy then
        some { s with occupancy := s.occupancy + 1, threads := s.threads.set i (advance t pc) }
      else none
  | .unlockRead =>
      some { s with occupancy := s.occupancy - 1, threads := s.threads.set i (advance t pc) }
  | .lockWrite =>
      if s.occupancy = 0 then
        some { s with occupancy := -1, threads := s.threads.set i (advance t pc) }
      else none
  | .unlockWrite =>
      some { s with occupancy := 0, threads := s.threads.set i (advance t pc) }
  | .downgrade =>
      some { s with occupancy := 1, threads := s.threads.set i (advance t pc) }
  | .incCtr c =>
      some { addCtr s c 1 with threads := s.threads.set i (advance t pc) }
  | .decCtr c =>
      some { addCtr s c (-1) with threads := s.threads.set i (advance t pc) }
  | .check c v fn =>
      some { s with log := s.log ++ CHECKA (readCtr s c) v (ctrName c) fn,
                    threads := s.threads.set i (advance t pc) }
  | .yield =>
      let t1 := advance t pc
      let t2 := if cfg.do_sched then { t1 with yields := t1.yields + 1 } else t1
      some { s with threads := s.threads.set i t2 }

/-- One step of thread `i`: at the loop head it reads `do_stuff` and either
enters the body or exits (signalling its completion); otherwise it executes
the instruction at its program counter.  `none` means the thread cannot step
(it is blocked in an acquisition, or has exited). -/
def threadStep (cfg : Config) (s : State) (i : Nat) : Option State :=
  match s.threads[i]? with
  | none => none
  | some t =>
    match t.st with
    | .done => none
    | .atHead =>
        some { s with threads :=
          s.threads.set i { t with st := if s.do_stuff then .running 0 else .done } }
    | .running pc =>
      match (body t.kind)[pc]? with
      | none => none
      | some ins => execInstr cfg s i t pc ins

/-- stop_test(): `atomic_set(&do_stuff, 0)` (the timer callback, also run by
the module exit path). -/
def stop_test (s : State) : State := { s with do_stuff := false }

/-- Interleaving step relation: some thread executes one instruction, or the
stop timer fires. -/
inductive Step (cfg : Config) : State → State → Prop where
  | thread (s s' : State) (i : Nat) (h : threadStep cfg s i = some s') : Step cfg s s'
  | stop (s : State) : Step cfg s (stop_test s)

/-- A freshly spawned thread of kind `k`. -/
def mkThread (k : Kind) : Thread := ⟨k, .atHead, 0, 0⟩

/-- Threads spawned at index `i` of the `for (loop = 0; loop < 20; loop++)`
spawn loop: one of each kind whose configured count exceeds `i`. -/
def spawnAt (cfg : Config) (i : Nat) : List Thread :=
  (if i < cfg.numrd then [mkThread .reader] else [])
    ++ (if i < cfg.numwr then [mkThread .writer] else [])
    ++ (if i < cfg.numdg then [mkThread .downgrader] else [])

/-- All threads spawned by `rwsem_init_module`'s spawn loop. -/
def spawned (cfg : Config) : List Thread := (List.range 20).flatMap (spawnAt cfg)

/-- Initial state of a run: `init_rwsem` (free lock), `do_stuff := 1`,
all counters zero, empty log, the spawned threads at their loop heads. -/
def init (cfg : Config) : State :=
  { do_stuff := true, occupancy := 0, readers := 0, writers := 0,
    reads_taken := 0, writes_taken := 0, downgrades_taken := 0,
    log := [], threads := spawned cfg }

/-- Reachability from the initial state under interleaving. -/
def Reach (cfg : Config) (s : State) : Prop :=
  Relation.ReflTransGen (Step cfg) (init cfg) s

/-- All threads have exited (every completion has been signalled, so the
join loops in `rwsem_init_module` have returned). -/
def AllDone (s : State) : Prop := ∀ t ∈ s.threads, t.st = TStatus.done

/-- What `rwsem_init_module` prints after the join loops: the semaphore's
internal counter and the three taken-counters. -/
structure Report where
  counter : Int
  reads_taken : Int
  writes_taken : Int
  downgrades_taken : Int
deriving DecidableEq, Repr

/-- The results printed by `rwsem_init_module` from the final state. -/
def report (s : State) : Report :=
  ⟨s.occupancy, s.reads_taken, s.writes_taken, s.downgrades_taken⟩

/-- errno 55, `ENOANO`. -/
def ENOANO : Int := 55

/-- The observable outcome of `rwsem_init_module` at its final state: the
printed report and the return value `-ENOANO` (line 257). -/
def rwsem_init_module (s : State) : Report × Int := (report s, -ENOANO)

/-- Number of completed `dr()` (acquire_read) calls of a thread: one per
completed iteration for a reader (whose body contains exactly one `dr`),
plus one if the current iteration is past dr's last instruction (index 3). -/
def drDone (t : Thread) : Int :=
  match t.kind with
  | .reader =>
      t.iters + (match t.st with | .running pc => if 4 ≤ pc then 1 else 0 | _ => 0)
  | _ => 0

/-- Number of completed `dw()` (acquire_write) calls of a thread: writers and
downgraders run one `dw` per iteration, whose last instruction is index 4. -/
def dwDone (t : Thread) : Int :=
  match t.kind with
  | .reader => 0
  | _ =>
      t.iters + (match t.st with | .running pc => if 5 ≤ pc then 1 else 0 | _ => 0)

/-- Number of completed `dgw()` (downgrade) calls of a thread: downgraders
run one `dgw` per iteration, whose last instruction is index 10. -/
def dgwDone (t : Thread) : Int :=
  match t.kind with
  | .downgrader =>
      t.iters + (match t.st with | .running pc => if 11 ≤ pc then 1 else 0 | _ => 0)
  | _ => 0

/-- Size of the per-kind completion arrays `rd_comp[20]`, `wr_comp[20]`,
`dg_comp[20]`. -/
def comp_size : Nat := 20

/-- Indices of the spawn loop at which a thread of a kind with configured
count `n` is created: `loop < 20` and `loop < n`. -/
def spawnIdx (n : Nat) : List Nat := (List.range 20).filter (fun i => i < n)

/-- Indices the join loop waits on for a kind with configured count `n`:
`for (loop = 0; loop < n; loop++) wait_for_completion(&..._comp[loop])`. -/
def joinIdx (n : Nat) : List Nat := List.range n

/-- A small example configuration: one thread of each kind, five seconds,
no voluntary yielding (the source defaults). -/
def cfg0 : Config := ⟨1, 1, 1, 5, false⟩

/-- A configuration with a single downgrader thread. -/
def cfgDg : Config := ⟨0, 0, 1, 5, false⟩

/-- A configuration with a single reader thread. -/
def cfgRd : Config := ⟨1, 0, 0, 5, false⟩

/-- A configuration asking for more reader threads than the 20-entry
completion arrays can accommodate. -/
def cfg21 : Config := ⟨21, 0, 0, 5, false⟩

/-- The state of a single-downgrader run after its thread entered the loop
body. -/
def dgS1 : State :=
  { do_stuff := true, occupancy := 0, readers := 0, writers := 0, reads_taken := 0,
    writes_taken := 0, downgrades_taken := 0, log := [],
    threads := [⟨Kind.downgrader, TStatus.running 0, 0, 0⟩] }

/-- The state of a single-downgrader run just after its `down_write`
succeeded. -/
def dgS2 : State :=
  { dgS1 with occupancy := -1, threads := [⟨Kind.downgrader, TStatus.running 1, 0, 0⟩] }

/-- The final state of a single-reader run stopped before the first
iteration: the thread observed the cleared flag and exited. -/
def rdDone : State :=
  { do_stuff := false, occupancy := 0, readers := 0, writers := 0, reads_taken := 0,
    writes_taken := 0, downgrades_taken := 0, log := [],
    threads := [⟨Kind.reader, TStatus.done, 0, 0⟩] }

/-- A deliberately corrupted state: a reader is about to run dr's
`CHECKA(writers, 0)` while the `writers` counter reads 5. -/
def sBad : State :=
  { do_stuff := true, occupancy := 1, readers := 0, writers := 5, reads_taken := 0,
    writes_taken := 0, downgrades_taken := 0, log := [],
    threads := [⟨Kind.reader, TStatus.running 3, 0, 0⟩] }

/-- A state whose single reader thread is about to run the trailing
`sched()` of its loop body. -/
def yS : State :=
  { do_stuff := true, occupancy := 0, readers := 0, writers := 0, reads_taken := 0,
    writes_taken := 0, downgrades_taken := 0, log := [],
    threads := [⟨Kind.reader, TStatus.running 7, 0, 0⟩] }

/-- Decidable classification of every `CHECKA` occurrence in a body: each
check is either `CHECKA(writers, 1)` while the thread write-holds with its
own `writers` increment in place, `CHECKA(writers, 0)` while it read-holds,
or `CHECKA(readers, 0)` while it write-holds with no own `readers`
increment in place. -/
def checkShapeB (k : Kind) (pc : Nat) : Bool :=
  match (body k)[pc]? with
  | some (.check c v _) =>
      (c == CtrId.writers && v == 1
        && (balOf (cdelta .writers) ((body k).take pc) == 1)
        && (balOf wdelta ((body k).take pc) == 1))
      || (c == CtrId.writers && v == 0 && (balOf rdelta ((body k).take pc) == 1))
      || (c == CtrId.readers && v == 0
        && (balOf wdelta ((body k).take pc) == 1)
        && (balOf (cdelta .readers) ((body k).take pc) == 0))
  | _ => true

/-- Decidable per-instruction preconditions established by the body itself:
releases happen exactly while holding, `downgrade` happens exactly while
write-holding, `atomic_dec` is only applied to the `readers`/`writers`
counters, and `yield` is exactly the last instruction of each body. -/
def instrPreB (k : Kind) (pc : Nat) : Bool :=
  match (body k)[pc]? with
  | none => true
  | some ins =>
    (match ins with
     | .unlockRead =>
         (balOf rdelta ((body k).take pc) == 1) && (balOf wdelta ((body k).take pc) == 0)
     | .unlockWrite =>
         (balOf wdelta ((body k).take pc) == 1) && (balOf rdelta ((body k).take pc) == 0)
     | .downgrade =>
         (balOf wdelta ((body k).take pc) == 1) && (balOf rdelta ((body k).take pc) == 0)
     | .decCtr c => (c == CtrId.readers) || (c == CtrId.writers)
     | _ => true)
    && (if ins == Instr.yield then pc + 1 == (body k).length
        else decide (pc + 1 < (body k).length))

/-- Per-thread well-formedness carried by the invariant: the program counter
stays inside the body, and the `schedule()` count matches `do_sched` gating
(one yield per completed iteration when set, none otherwise). -/
def TWF (cfg : Config) (t : Thread) : Prop :=
  (∀ pc, t.st = TStatus.running pc → pc < (body t.kind).length) ∧
  t.yields = (if cfg.do_sched then t.iters else 0)

/-- The global invariant: each atomic counter equals the sum of per-thread
contributions, the occupancy equals read holds minus write holds, at most
one write hold exists, write and read holds exclude each other, no check
has ever failed, and every thread is well formed. -/
def Inv (cfg : Config) (s : State) : Prop :=
  (∀ c, readCtr s c = sumC c s.threads) ∧
  s.occupancy = sumRd s.threads - sumWr s.threads ∧
  sumWr s.threads ≤ 1 ∧
  (1 ≤ sumWr s.threads → sumRd s.threads = 0) ∧
  s.log = [] ∧
  (∀ t ∈ s.threads, TWF cfg t)

/-- Setting one list entry changes a mapped sum by the difference of the
images of the old and new entries. -/
theorem sum_map_set_add (f : Thread → Int) (l : List Thread) (i : Nat) (a b : Thread)
    (h : l[i]? = some a) :
    ((l.set i b).map f).sum + f a = (l.map f).sum + f b := by
  induction l generalizing i with
  | nil => simp at h
  | cons x xs ih =>
    cases i with
    | zero =>
      simp only [List.getElem?_cons_zero, Option.some.injEq] at h
      subst h
      simp [List.set]
      ring
    | succ n =>
      simp only [List.getElem?_cons_succ] at h
      have hx := ih n h
      simp only [List.set, List.map_cons, List.sum_cons]
      omega

/-- A mapped sum of pointwise nonnegative values is nonnegative. -/
theorem sum_map_nonneg (f : Thread → Int) (l : List Thread)
    (h : ∀ a ∈ l, 0 ≤ f a) : 0 ≤ (l.map f).sum := by
  induction l with
  | nil => simp
  | cons x xs ih =>
    simp only [List.map_cons, List.sum_cons]
    have h1 := h x (by simp)
    have h2 := ih fun a ha => h a (by simp [ha])
    omega

/-- Pointwise dominated values give dominated mapped sums. -/
theorem sum_map_le (f g : Thread → Int) (l : List Thread)
    (h : ∀ a ∈ l, f a ≤ g a) : (l.map f).sum ≤ (l.map g).sum := by
  induction l with
  | nil => simp
  | cons x xs ih =>
    simp only [List.map_cons, List.sum_cons]
    have h1 := h x (by simp)
    have h2 := ih fun a ha => h a (by simp [ha])
    omega

/-- One entry's value is at most the mapped sum when all values are
nonnegative. -/
theorem single_le_sum_map (f : Thread → Int) (l : List Thread) (i : Nat) (a : Thread)
    (h : l[i]? = some a) (h0 : ∀ b ∈ l, 0 ≤ f b) : f a ≤ (l.map f).sum := by
  induction l generalizing i with
  | nil => simp at h
  | cons x xs ih =>
    simp only [List.map_cons, List.sum_cons]
    cases i with
    | zero =>
      simp only [List.getElem?_cons_zero, Option.some.injEq] at h
      subst h
      have := sum_map_nonneg f xs fun b hb => h0 b (by simp [hb])
      omega
    | succ n =>
      simp only [List.getElem?_cons_succ] at h
      have h1 := h0 x (by simp)
      have h2 := ih n h fun b hb => h0 b (by simp [hb])
      omega

/-- Removing one common entry preserves pointwise sum domination. -/
theorem sum_sub_le_sum_sub (f g : Thread → Int) (l : List Thread) (i : Nat) (a : Thread)
    (h : l[i]? = some a) (hpt : ∀ b ∈ l, f b ≤ g b) :
    (l.map f).sum - f a ≤ (l.map g).sum - g a := by
  induction l generalizing i with
  | nil => simp at h
  | cons x xs ih =>
    simp only [List.map_cons, List.sum_cons]
    cases i with
    | zero =>
      simp only [List.getElem?_cons_zero, Option.some.injEq] at h
      subst h
      have := sum_map_le f g xs fun b hb => hpt b (by simp [hb])
      omega
    | succ n =>
      simp only [List.getElem?_cons_succ] at h
      have h1 := hpt x (by simp)
      have h2 := ih n h fun b hb => hpt b (by simp [hb])
      omega

/-- A mapped sum of a pointwise Int sum splits. -/
theorem sum_map_add (f g : Thread → Int) (l : List Thread) :
    (l.map (fun a => f a + g a)).sum = (l.map f).sum + (l.map g).sum := by
  induction l with
  | nil => simp
  | cons x xs ih =>
    simp only [List.map_cons, List.sum_cons, ih]
    ring

/-- A positive mapped sum has a positive entry at some index. -/
theorem exists_pos_of_sum_pos (f : Thread → Int) (l : List Thread)
    (h : 0 < (l.map f).sum) : ∃ (i : Nat) (a : Thread), l[i]? = some a ∧ 0 < f a := by
  induction l with
  | nil => simp at h
  | cons x xs ih =>
    simp only [List.map_cons, List.sum_cons] at h
    by_cases hx : 0 < f x
    · exact ⟨0, x, by simp, hx⟩
    · have : 0 < (xs.map f).sum := by omega
      obtain ⟨i, a, ha, hfa⟩ := ih this
      exact ⟨i + 1, a, by simpa using ha, hfa⟩

/-- Balances are additive over code concatenation. -/
theorem balOf_append (f : Instr → Int) (c1 c2 : List Instr) :
    balOf f (c1 ++ c2) = balOf f c1 + balOf f c2 := by
  simp [balOf]

/-- Every thread body is nonempty. -/
theorem body_len_pos (k : Kind) : 0 < (body k).length := by
  cases k <;> decide

/-- Net balances of one whole loop body: every iteration releases what it
acquired and undoes its `readers`/`writers` counter increments. -/
theorem full_facts (k : Kind) :
    balOf rdelta (body k) = 0 ∧ balOf wdelta (body k) = 0 ∧
    balOf (cdelta .readers) (body k) = 0 ∧ balOf (cdelta .writers) (body k) = 0 := by
  cases k <;> decide

/-- Pointwise bounds on all executed prefixes of a loop body: a thread holds
at most one read and at most one write hold and never both, its `writers`
counter contribution only exists while it write-holds, and its `readers`
counter contribution only exists while it holds read or write access. -/
theorem pfx_facts (k : Kind) : ∀ pc, pc < (body k).length + 1 →
    0 ≤ balOf rdelta ((body k).take pc) ∧ balOf rdelta ((body k).take pc) ≤ 1 ∧
    0 ≤ balOf wdelta ((body k).take pc) ∧ balOf wdelta ((body k).take pc) ≤ 1 ∧
    balOf rdelta ((body k).take pc) + balOf wdelta ((body k).take pc) ≤ 1 ∧
    0 ≤ balOf (cdelta .writers) ((body k).take pc) ∧
    balOf (cdelta .writers) ((body k).take pc) ≤ balOf wdelta ((body k).take pc) ∧
    0 ≤ balOf (cdelta .readers) ((body k).take pc) ∧
    balOf (cdelta .readers) ((body k).take pc) + balOf (cdelta .writers) ((body k).take pc) ≤
      balOf rdelta ((body k).take pc) + balOf wdelta ((body k).take pc) := by
  cases k <;> decide

/-- Advancing a thread does not change its kind. -/
theorem advance_kind (t : Thread) (pc : Nat) : (advance t pc).kind = t.kind := by
  unfold advance
  split <;> rfl

/-- Advancing past one instruction adds that instruction's delta to any
prefix balance whose whole-body balance is zero. -/
theorem pBal_advance (f : Instr → Int) (t : Thread) (pc : Nat) (ins : Instr)
    (hst : t.st = .running pc) (hins : (body t.kind)[pc]? = some ins)
    (hfull : balOf f (body t.kind) = 0) :
    pBal f (advance t pc) = pBal f t + f ins := by
  have hlt : pc < (body t.kind).length := (List.getElem?_eq_some.mp hins).1
  have htake : (body t.kind).take (pc + 1) = (body t.kind).take pc ++ [ins] := by
    rw [List.take_succ, hins]
    rfl
  have hsplit : balOf f ((body t.kind).take (pc + 1)) =
      balOf f ((body t.kind).take pc) + f ins := by
    rw [htake, balOf_append]
    simp [balOf]
  unfold advance
  split
  · simp only [pBal, prefixOf, hst]
    exact hsplit
  · have hlen : pc + 1 = (body t.kind).length := by omega
    have hfullpfx : (body t.kind).take (pc + 1) = body t.kind := by
      rw [hlen]
      exact List.take_length _
    rw [hfullpfx, hfull] at hsplit
    simp only [balOf] at hsplit
    simp only [pBal, prefixOf, hst, balOf, List.map_nil, List.sum_nil]
    omega

/-- Advancing past one instruction adds that instruction's delta to the
cumulative counter contribution of the thread. -/
theorem cBal_advance (c : CtrId) (t : Thread) (pc : Nat) (ins : Instr)
    (hst : t.st = .running pc) (hins : (body t.kind)[pc]? = some ins) :
    cBal c (advance t pc) = cBal c t + cdelta c ins := by
  have hlt : pc < (body t.kind).length := (List.getElem?_eq_some.mp hins).1
  have htake : (body t.kind).take (pc + 1) = (body t.kind).take pc ++ [ins] := by
    rw [List.take_succ, hins]
    rfl
  have hsplit : balOf (cdelta c) ((body t.kind).take (pc + 1)) =
      balOf (cdelta c) ((body t.kind).take pc) + cdelta c ins := by
    rw [htake, balOf_append]
    simp [balOf]
  unfold advance
  split
  · simp only [cBal, pBal, prefixOf, hst]
    omega
  · have hlen : pc + 1 = (body t.kind).length := by omega
    have hfullpfx : (body t.kind).take (pc + 1) = body t.kind := by
      rw [hlen]
      exact List.take_length _
    rw [hfullpfx] at hsplit
    simp only [balOf] at hsplit
    simp only [cBal, pBal, prefixOf, hst, balOf, List.map_nil, List.sum_nil]
    push_cast
    linear_combination hsplit

/-- The prefix balances of a thread are insensitive to its yield counter. -/
theorem pBal_yields (f : Instr → Int) (t : Thread) (y : Nat) :
    pBal f { t with yields := y } = pBal f t := rfl

/-- The cumulative counter contributions are insensitive to the yield
counter. -/
theorem cBal_yields (c : CtrId) (t : Thread) (y : Nat) :
    cBal c { t with yields := y } = cBal c t := rfl

/-- Bounds on one well-formed thread's holds and counter contributions. -/
theorem tBounds (cfg : Config) (t : Thread) (h : TWF cfg t) :
    0 ≤ pBal rdelta t ∧ pBal rdelta t ≤ 1 ∧ 0 ≤ pBal wdelta t ∧ pBal wdelta t ≤ 1 ∧
    pBal rdelta t + pBal wdelta t ≤ 1 ∧
    0 ≤ cBal .writers t ∧ cBal .writers t ≤ pBal wdelta t ∧
    0 ≤ cBal .readers t ∧
    cBal .readers t + cBal .writers t ≤ pBal rdelta t + pBal wdelta t := by
  obtain ⟨hpc, -⟩ := h
  obtain ⟨hfr, hfw, hfcr, hfcw⟩ := full_facts t.kind
  cases hs : t.st with
  | running pc =>
    have hlt := hpc pc hs
    have hf := pfx_facts t.kind pc (by omega)
    have e1 : pBal rdelta t = balOf rdelta ((body t.kind).take pc) := by
      simp [pBal, prefixOf, hs]
    have e2 : pBal wdelta t = balOf wdelta ((body t.kind).take pc) := by
      simp [pBal, prefixOf, hs]
    have e3 : cBal .readers t = balOf (cdelta .readers) ((body t.kind).take pc) := by
      simp [cBal, pBal, prefixOf, hs, hfcr]
    have e4 : cBal .writers t = balOf (cdelta .writers) ((body t.kind).take pc) := by
      simp [cBal, pBal, prefixOf, hs, hfcw]
    rw [e1, e2, e3, e4]
    obtain ⟨b1, b2, b3, b4, b5, b6, b7, b8, b9⟩ := hf
    exact ⟨b1, b2, b3, b4, b5, b6, b7, b8, b9⟩
  | atHead =>
    have e : prefixOf t = [] := by simp [prefixOf, hs]
    have z : ∀ f : Instr → Int, balOf f ([] : List Instr) = 0 := by
      intro f
      simp [balOf]
    simp [pBal, cBal, e, z, hfcr, hfcw]
  | done =>
    have e : prefixOf t = [] := by simp [prefixOf, hs]
    have z : ∀ f : Instr → Int, balOf f ([] : List Instr) = 0 := by
      intro f
      simp [balOf]
    simp [pBal, cBal, e, z, hfcr, hfcw]

/-- In an invariant state, a thread holding write access is the only holder:
there is exactly one write hold, no read hold, the lock is writer-held, and
the global `readers`/`writers` counters are exactly this thread's own
contributions. -/
theorem writeholder_facts (cfg : Config) (s : State) (hInv : Inv cfg s) (i : Nat) (t : Thread)
    (ht : s.threads[i]? = some t) (hw : pBal wdelta t = 1) :
    sumWr s.threads = 1 ∧ sumRd s.threads = 0 ∧ s.occupancy = -1 ∧
    s.writers = cBal .writers t ∧ s.readers = cBal .readers t ∧ pBal rdelta t = 0 := by
  obtain ⟨hCtr, hO, hW1, hWR, hL, hTWF⟩ := hInv
  have hA : s.readers = sumC .readers s.threads := hCtr CtrId.readers
  have hB : s.writers = sumC .writers s.threads := hCtr CtrId.writers
  have hb : ∀ b ∈ s.threads,
      0 ≤ pBal rdelta b ∧ pBal rdelta b ≤ 1 ∧ 0 ≤ pBal wdelta b ∧ pBal wdelta b ≤ 1 ∧
      pBal rdelta b + pBal wdelta b ≤ 1 ∧
      0 ≤ cBal .writers b ∧ cBal .writers b ≤ pBal wdelta b ∧
      0 ≤ cBal .readers b ∧
      cBal .readers b + cBal .writers b ≤ pBal rdelta b + pBal wdelta b :=
    fun b hbm => tBounds cfg b (hTWF b hbm)
  have htm : t ∈ s.threads := List.getElem?_mem ht
  have hbt := hb t htm
  simp only [sumC, sumRd, sumWr, sumB] at hA hB hO hW1 hWR ⊢
  have h1 : pBal wdelta t ≤ (s.threads.map (pBal wdelta)).sum :=
    single_le_sum_map _ s.threads i t ht fun b hbm => (hb b hbm).2.2.1
  have hWre : (s.threads.map (pBal wdelta)).sum = 1 := by omega
  have hRd0 : (s.threads.map (pBal rdelta)).sum = 0 := by
    have := hWR (by omega)
    omega
  have hOcc : s.occupancy = -1 := by omega
  have h2 : (s.threads.map (cBal .writers)).sum - cBal .writers t ≤
      (s.threads.map (pBal wdelta)).sum - pBal wdelta t :=
    sum_sub_le_sum_sub _ _ s.threads i t ht fun b hbm => (hb b hbm).2.2.2.2.2.2.1
  have h3 : cBal .writers t ≤ (s.threads.map (cBal .writers)).sum :=
    single_le_sum_map _ s.threads i t ht fun b hbm => (hb b hbm).2.2.2.2.2.1
  have hw' : s.writers = cBal .writers t := by omega
  have h4 : (s.threads.map (cBal .readers)).sum - cBal .readers t ≤
      (s.threads.map (fun b => pBal rdelta b + pBal wdelta b)).sum -
        (pBal rdelta t + pBal wdelta t) :=
    sum_sub_le_sum_sub _ _ s.threads i t ht fun b hbm => by
      have := hb b hbm
      omega
  have h5 : (s.threads.map (fun b => pBal rdelta b + pBal wdelta b)).sum =
      (s.threads.map (pBal rdelta)).sum + (s.threads.map (pBal wdelta)).sum :=
    sum_map_add _ _ _
  have h6 : cBal .readers t ≤ (s.threads.map (cBal .readers)).sum :=
    single_le_sum_map _ s.threads i t ht fun b hbm => (hb b hbm).2.2.2.2.2.2.2.1
  have hrd0 : pBal rdelta t = 0 := by omega
  have hr' : s.readers = cBal .readers t := by omega
  exact ⟨hWre, hRd0, hOcc, hw', hr', hrd0⟩

/-- In an invariant state, a thread holding read access excludes all write
holds: the `writers` counter is zero, at least one read hold exists, the
occupancy is the (positive) number of read holds, and the thread's own
`readers` contribution is part of the global counter. -/
theorem readholder_facts (cfg : Config) (s : State) (hInv : Inv cfg s) (i : Nat) (t : Thread)
    (ht : s.threads[i]? = some t) (hr : 1 ≤ pBal rdelta t) :
    sumWr s.threads = 0 ∧ s.writers = 0 ∧ 1 ≤ sumRd s.threads ∧
    s.occupancy = sumRd s.threads ∧ cBal .readers t ≤ s.readers := by
  obtain ⟨hCtr, hO, hW1, hWR, hL, hTWF⟩ := hInv
  have hA : s.readers = sumC .readers s.threads := hCtr CtrId.readers
  have hB : s.writers = sumC .writers s.threads := hCtr CtrId.writers
  have hb : ∀ b ∈ s.threads,
      0 ≤ pBal rdelta b ∧ pBal rdelta b ≤ 1 ∧ 0 ≤ pBal wdelta b ∧ pBal wdelta b ≤ 1 ∧
      pBal rdelta b + pBal wdelta b ≤ 1 ∧
      0 ≤ cBal .writers b ∧ cBal .writers b ≤ pBal wdelta b ∧
      0 ≤ cBal .readers b ∧
      cBal .readers b + cBal .writers b ≤ pBal rdelta b + pBal wdelta b :=
    fun b hbm => tBounds cfg b (hTWF b hbm)
  simp only [sumC, sumRd, sumWr, sumB] at hA hB hO hW1 hWR ⊢
  have h1 : pBal rdelta t ≤ (s.threads.map (pBal rdelta)).sum :=
    single_le_sum_map _ s.threads i t ht fun b hbm => (hb b hbm).1
  have hRd1 : 1 ≤ (s.threads.map (pBal rdelta)).sum := by omega
  have hWr0 : (s.threads.map (pBal wdelta)).sum = 0 := by
    have hge : 0 ≤ (s.threads.map (pBal wdelta)).sum :=
      sum_map_nonneg _ _ fun b hbm => (hb b hbm).2.2.1
    by_contra hne
    have : (1:Int) ≤ (s.threads.map (pBal wdelta)).sum := by omega
    have := hWR this
    omega
  have hcw : (s.threads.map (cBal .writers)).sum = 0 := by
    have hle : (s.threads.map (cBal .writers)).sum ≤ (s.threads.map (pBal wdelta)).sum :=
      sum_map_le _ _ _ fun b hbm => (hb b hbm).2.2.2.2.2.2.1
    have hge : 0 ≤ (s.threads.map (cBal .writers)).sum :=
      sum_map_nonneg _ _ fun b hbm => (hb b hbm).2.2.2.2.2.1
    omega
  have h6 : cBal .readers t ≤ (s.threads.map (cBal .readers)).sum :=
    single_le_sum_map _ s.threads i t ht fun b hbm => (hb b hbm).2.2.2.2.2.2.2.1
  exact ⟨hWr0, by omega, hRd1, by omega, by omega⟩

/-- All check occurrences in all bodies satisfy `checkShapeB`. -/
theorem check_factsB (k : Kind) : ∀ pc, pc < (body k).length → checkShapeB k pc = true := by
  cases k <;> decide

/-- All bodies satisfy the per-instruction preconditions `instrPreB`. -/
theorem instr_factsB (k : Kind) : ∀ pc, pc < (body k).length → instrPreB k pc = true := by
  cases k <;> decide

/-- Propositional form of `checkShapeB` at a concrete check instruction. -/
theorem check_shape (k : Kind) (pc : Nat) (c : CtrId) (v : Int) (fn : String)
    (h : (body k)[pc]? = some (.check c v fn)) :
    (c = CtrId.writers ∧ v = 1 ∧ balOf (cdelta .writers) ((body k).take pc) = 1 ∧
      balOf wdelta ((body k).take pc) = 1)
    ∨ (c = CtrId.writers ∧ v = 0 ∧ balOf rdelta ((body k).take pc) = 1)
    ∨ (c = CtrId.readers ∧ v = 0 ∧ balOf wdelta ((body k).take pc) = 1 ∧
      balOf (cdelta .readers) ((body k).take pc) = 0) := by
  have hlt : pc < (body k).length := (List.getElem?_eq_some.mp h).1
  have hB := check_factsB k pc hlt
  unfold checkShapeB at hB
  rw [h] at hB
  simp only [Bool.or_eq_true, Bool.and_eq_true, beq_iff_eq] at hB
  tauto

/-- Threads of a list with one entry replaced are all well formed when the
originals and the replacement are. -/
theorem TWF_set (cfg : Config) (l : List Thread) (i : Nat) (b : Thread)
    (hall : ∀ t ∈ l, TWF cfg t) (hb : TWF cfg b) : ∀ t ∈ l.set i b, TWF cfg t :=
  fun t htm => (List.mem_or_eq_of_mem_set htm).elim (hall t) (fun he => he ▸ hb)

/-- Advancing past a non-yield instruction keeps a thread well formed. -/
theorem TWF_advance (cfg : Config) (t : Thread) (pc : Nat) (ins : Instr)
    (h : TWF cfg t) (hst : t.st = .running pc) (hins : (body t.kind)[pc]? = some ins)
    (hny : ins ≠ .yield) : TWF cfg (advance t pc) := by
  have hlt : pc < (body t.kind).length := (List.getElem?_eq_some.mp hins).1
  have hb := instr_factsB t.kind pc hlt
  unfold instrPreB at hb
  rw [hins] at hb
  have hlt2 : pc + 1 < (body t.kind).length := by
    cases ins <;> simp_all
  unfold advance
  rw [if_pos hlt2]
  refine ⟨?_, h.2⟩
  intro pc' hpc'
  have heq : pc + 1 = pc' := by
    have h2 : TStatus.running (pc + 1) = TStatus.running pc' := hpc'
    injection h2
  show pc' < (body t.kind).length
  omega

/-- The yield instruction sits exactly at the end of the body. -/
theorem yield_last (t : Thread) (pc : Nat)
    (hins : (body t.kind)[pc]? = some .yield) : pc + 1 = (body t.kind).length := by
  have hlt : pc < (body t.kind).length := (List.getElem?_eq_some.mp hins).1
  have hb := instr_factsB t.kind pc hlt
  unfold instrPreB at hb
  rw [hins] at hb
  simp only [Bool.and_eq_true, if_true, beq_iff_eq] at hb
  exact hb.2

/-- Decrements in the bodies only ever target the `readers` and `writers`
counters; the three taken-counters are never decremented. -/
theorem dec_shape (t : Thread) (pc : Nat) (c : CtrId)
    (hins : (body t.kind)[pc]? = some (.decCtr c)) :
    c = CtrId.readers ∨ c = CtrId.writers := by
  have hlt : pc < (body t.kind).length := (List.getElem?_eq_some.mp hins).1
  have hb := instr_factsB t.kind pc hlt
  unfold instrPreB at hb
  rw [hins] at hb
  simp only [Bool.and_eq_true, Bool.or_eq_true, beq_iff_eq] at hb
  tauto

/-- An `up_read` only occurs while its thread holds exactly one read hold
and no write hold. -/
theorem relR_shape (t : Thread) (pc : Nat)
    (hins : (body t.kind)[pc]? = some .unlockRead) :
    balOf rdelta ((body t.kind).take pc) = 1 ∧
    balOf wdelta ((body t.kind).take pc) = 0 := by
  have hlt : pc < (body t.kind).length := (List.getElem?_eq_some.mp hins).1
  have hb := instr_factsB t.kind pc hlt
  unfold instrPreB at hb
  rw [hins] at hb
  simp at hb
  tauto

/-- An `up_write` or `downgrade_write` only occurs while its thread holds
exactly one write hold and no read hold. -/
theorem relW_shape (t : Thread) (pc : Nat) (ins : Instr)
    (hins : (body t.kind)[pc]? = some ins)
    (hrel : ins = .unlockWrite ∨ ins = .downgrade) :
    balOf wdelta ((body t.kind).take pc) = 1 ∧
    balOf rdelta ((body t.kind).take pc) = 0 := by
  have hlt : pc < (body t.kind).length := (List.getElem?_eq_some.mp hins).1
  have hb := instr_factsB t.kind pc hlt
  unfold instrPreB at hb
  rw [hins] at hb
  rcases hrel with h | h <;> subst h <;> simp at hb <;> tauto

/-- Effect of one advance on the global hold and counter sums. -/
theorem sums_set_advance (s : State) (i : Nat) (t : Thread) (pc : Nat) (ins : Instr)
    (ht : s.threads[i]? = some t) (hst : t.st = .running pc)
    (hins : (body t.kind)[pc]? = some ins) :
    sumRd (s.threads.set i (advance t pc)) = sumRd s.threads + rdelta ins ∧
    sumWr (s.threads.set i (advance t pc)) = sumWr s.threads + wdelta ins ∧
    ∀ c, sumC c (s.threads.set i (advance t pc)) = sumC c s.threads + cdelta c ins := by
  refine ⟨?_, ?_, ?_⟩
  · have h1 := sum_map_set_add (pBal rdelta) s.threads i t (advance t pc) ht
    have h2 := pBal_advance rdelta t pc ins hst hins (full_facts t.kind).1
    simp only [sumRd, sumB]
    omega
  · have h1 := sum_map_set_add (pBal wdelta) s.threads i t (advance t pc) ht
    have h2 := pBal_advance wdelta t pc ins hst hins (full_facts t.kind).2.1
    simp only [sumWr, sumB]
    omega
  · intro c
    have h1 := sum_map_set_add (cBal c) s.threads i t (advance t pc) ht
    have h2 := cBal_advance c t pc ins hst hins
    simp only [sumC, sumB]
    omega

/-- Hold sums are nonnegative in any well-formed state. -/
theorem sums_nonneg (cfg : Config) (l : List Thread) (hTWF : ∀ t ∈ l, TWF cfg t) :
    0 ≤ sumRd l ∧ 0 ≤ sumWr l ∧ 0 ≤ sumC .readers l ∧ 0 ≤ sumC .writers l :=
  ⟨sum_map_nonneg _ _ fun b hb => (tBounds cfg b (hTWF b hb)).1,
   sum_map_nonneg _ _ fun b hb => (tBounds cfg b (hTWF b hb)).2.2.1,
   sum_map_nonneg _ _ fun b hb => (tBounds cfg b (hTWF b hb)).2.2.2.2.2.2.2.1,
   sum_map_nonneg _ _ fun b hb => (tBounds cfg b (hTWF b hb)).2.2.2.2.2.1⟩

/-- Loop-head and exit transitions do not change any balance. -/
theorem head_bal (t : Thread) (h : t.st = .atHead) (st' : TStatus)
    (hst' : st' = .atHead ∨ st' = .done ∨ st' = .running 0) :
    (∀ f, pBal f { t with st := st' } = pBal f t) ∧
    (∀ c, cBal c { t with st := st' } = cBal c t) := by
  rcases hst' with h' | h' | h' <;> subst h' <;>
    exact ⟨fun f => by simp [pBal, prefixOf, h], fun c => by simp [cBal, pBal, prefixOf, h]⟩

/-- The counters component of the invariant after one instruction. -/
theorem ctr_component (s s' : State) (l' : List Thread) (ins : Instr)
    (hCtr : ∀ c, readCtr s c = sumC c s.threads)
    (hSC : ∀ c, sumC c l' = sumC c s.threads + cdelta c ins)
    (hrc : ∀ c, readCtr s' c = readCtr s c + cdelta c ins)
    (hth : s'.threads = l') :
    ∀ c, readCtr s' c = sumC c s'.threads := by
  intro c
  rw [hth, hSC c, hrc c, hCtr c]

/-- A loop-head transition (entering the body or exiting) preserves the
invariant. -/
theorem inv_head (cfg : Config) (s : State) (i : Nat) (t : Thread) (st' : TStatus)
    (hInv : Inv cfg s) (hti : s.threads[i]? = some t) (hstt : t.st = .atHead)
    (hst' : st' = TStatus.done ∨ st' = TStatus.running 0) :
    Inv cfg { s with threads := s.threads.set i { t with st := st' } } := by
  obtain ⟨hCtr, hO, hW1, hWR, hL, hTWF⟩ := id hInv
  have hmem := List.getElem?_mem hti
  have hbal := head_bal t hstt st' (Or.inr hst')
  have hr : sumRd (s.threads.set i { t with st := st' }) + pBal rdelta t
      = sumRd s.threads + pBal rdelta { t with st := st' } :=
    sum_map_set_add (pBal rdelta) s.threads i t { t with st := st' } hti
  have hw : sumWr (s.threads.set i { t with st := st' }) + pBal wdelta t
      = sumWr s.threads + pBal wdelta { t with st := st' } :=
    sum_map_set_add (pBal wdelta) s.threads i t { t with st := st' } hti
  have hrr := hbal.1 rdelta
  have hww := hbal.1 wdelta
  refine ⟨?_, ?_, ?_, ?_, hL, ?_⟩
  · intro c
    have h1 : sumC c (s.threads.set i { t with st := st' }) + cBal c t
        = sumC c s.threads + cBal c { t with st := st' } :=
      sum_map_set_add (cBal c) s.threads i t { t with st := st' } hti
    have h2 := hbal.2 c
    have h3 : readCtr { s with threads := s.threads.set i { t with st := st' } } c
        = readCtr s c := by
      cases c <;> rfl
    show readCtr { s with threads := s.threads.set i { t with st := st' } } c
        = sumC c (s.threads.set i { t with st := st' })
    rw [h3, hCtr c]
    omega
  · show s.occupancy = sumRd (s.threads.set i { t with st := st' })
      - sumWr (s.threads.set i { t with st := st' })
    omega
  · show sumWr (s.threads.set i { t with st := st' }) ≤ 1
    omega
  · show 1 ≤ sumWr (s.threads.set i { t with st := st' })
      → sumRd (s.threads.set i { t with st := st' }) = 0
    intro h1
    omega
  · show ∀ u ∈ s.threads.set i { t with st := st' }, TWF cfg u
    refine TWF_set cfg s.threads i _ hTWF ⟨?_, (hTWF t hmem).2⟩
    intro pc' hpc'
    rcases hst' with h' | h' <;> subst h'
    · cases hpc'
    · cases hpc'
      exact body_len_pos t.kind

/-- Executing the trailing `sched()` of a body preserves the invariant, for
any bookkeeping of the stepped thread that keeps its balances equal to the
plainly advanced thread. -/
theorem inv_run_yield (cfg : Config) (s : State) (i : Nat) (t : Thread) (pc : Nat)
    (t2 : Thread) (hInv : Inv cfg s) (hti : s.threads[i]? = some t)
    (hstt : t.st = .running pc) (hins : (body t.kind)[pc]? = some .yield)
    (hbal : ∀ f, pBal f t2 = pBal f (advance t pc))
    (hcb : ∀ c, cBal c t2 = cBal c (advance t pc))
    (hTWF2 : TWF cfg t2) :
    Inv cfg { s with threads := s.threads.set i t2 } := by
  obtain ⟨hCtr, hO, hW1, hWR, hL, hTWF⟩ := id hInv
  have hr : sumRd (s.threads.set i t2) + pBal rdelta t
      = sumRd s.threads + pBal rdelta t2 :=
    sum_map_set_add (pBal rdelta) s.threads i t t2 hti
  have hw : sumWr (s.threads.set i t2) + pBal wdelta t
      = sumWr s.threads + pBal wdelta t2 :=
    sum_map_set_add (pBal wdelta) s.threads i t t2 hti
  have hr2 := pBal_advance rdelta t pc _ hstt hins (full_facts t.kind).1
  have hw2 := pBal_advance wdelta t pc _ hstt hins (full_facts t.kind).2.1
  simp only [rdelta, wdelta] at hr2 hw2
  have hrr := hbal rdelta
  have hww := hbal wdelta
  refine ⟨?_, ?_, ?_, ?_, hL, ?_⟩
  · intro c
    have h1 : sumC c (s.threads.set i t2) + cBal c t = sumC c s.threads + cBal c t2 :=
      sum_map_set_add (cBal c) s.threads i t t2 hti
    have h2 := cBal_advance c t pc _ hstt hins
    have h25 := hcb c
    have h3 : readCtr { s with threads := s.threads.set i t2 } c = readCtr s c := by
      cases c <;> rfl
    have h4 : cdelta c Instr.yield = 0 := by cases c <;> rfl
    show readCtr { s with threads := s.threads.set i t2 } c = sumC c (s.threads.set i t2)
    rw [h3, hCtr c]
    omega
  · show s.occupancy = sumRd (s.threads.set i t2) - sumWr (s.threads.set i t2)
    omega
  · show sumWr (s.threads.set i t2) ≤ 1
    omega
  · show 1 ≤ sumWr (s.threads.set i t2) → sumRd (s.threads.set i t2) = 0
    intro h1
    omega
  · show ∀ u ∈ s.threads.set i t2, TWF cfg u
    exact TWF_set cfg s.threads i t2 hTWF hTWF2

/-- The invariant is preserved by every step. -/
theorem inv_step (cfg : Config) (s s' : State) (hInv : Inv cfg s) (h : Step cfg s s') :
    Inv cfg s' := by
  cases h with
  | stop => exact hInv
  | thread _x i hstep =>
    unfold threadStep at hstep
    split at hstep
    · exact absurd hstep (by simp)
    next t hti =>
      split at hstep
      next hstt => exact absurd hstep (by simp)
      next hstt =>
        simp only [Option.some.injEq] at hstep
        subst hstep
        exact inv_head cfg s i t _ hInv hti hstt (by cases s.do_stuff <;> simp)
      next pc hstt =>
        split at hstep
        · exact absurd hstep (by simp)
        next ins hins =>
          have hlt : pc < (body t.kind).length := (List.getElem?_eq_some.mp hins).1
          obtain ⟨hSR, hSW, hSC⟩ := sums_set_advance s i t pc ins hti hstt hins
          obtain ⟨hCtr, hO, hW1, hWR, hL, hTWF⟩ := id hInv
          have hmem := List.getElem?_mem hti
          have hTWFt := hTWF t hmem
          obtain ⟨hnn1, hnn2, hnn3, hnn4⟩ := sums_nonneg cfg s.threads hTWF
          cases ins with
          | lockRead =>
            simp only [execInstr] at hstep
            split at hstep
            next hguard =>
              simp only [Option.some.injEq] at hstep
              subst hstep
              simp only [rdelta, wdelta] at hSR hSW
              have hWr0 : sumWr s.threads = 0 := by
                by_contra hne
                have h1 := hWR (by omega)
                omega
              refine ⟨ctr_component s _ _ _ hCtr hSC
                (fun c => by cases c <;> simp [readCtr, cdelta]) rfl, ?_, ?_, ?_, hL, ?_⟩
              · show s.occupancy + 1 = sumRd (s.threads.set i (advance t pc))
                  - sumWr (s.threads.set i (advance t pc))
                omega
              · show sumWr (s.threads.set i (advance t pc)) ≤ 1
                omega
              · show 1 ≤ sumWr (s.threads.set i (advance t pc))
                  → sumRd (s.threads.set i (advance t pc)) = 0
                intro h1
                omega
              · exact TWF_set cfg s.threads i _ hTWF
                  (TWF_advance cfg t pc _ hTWFt hstt hins (by simp))
            next hguard => exact absurd hstep (by simp)
          | unlockRead =>
            simp only [execInstr, Option.some.injEq] at hstep
            subst hstep
            simp only [rdelta, wdelta] at hSR hSW
            have hpb : pBal rdelta t = 1 := by
              simpa [pBal, prefixOf, hstt] using (relR_shape t pc hins).1
            have hrf := readholder_facts cfg s ⟨hCtr, hO, hW1, hWR, hL, hTWF⟩ i t hti (by omega)
            obtain ⟨hrf1, hrf2, hrf3, hrf4, hrf5⟩ := hrf
            refine ⟨ctr_component s _ _ _ hCtr hSC
              (fun c => by cases c <;> simp [readCtr, cdelta]) rfl, ?_, ?_, ?_, hL, ?_⟩
            · show s.occupancy - 1 = sumRd (s.threads.set i (advance t pc))
                - sumWr (s.threads.set i (advance t pc))
              omega
            · show sumWr (s.threads.set i (advance t pc)) ≤ 1
              omega
            · show 1 ≤ sumWr (s.threads.set i (advance t pc))
                → sumRd (s.threads.set i (advance t pc)) = 0
              intro h1
              omega
            · exact TWF_set cfg s.threads i _ hTWF
                (TWF_advance cfg t pc _ hTWFt hstt hins (by simp))
          | lockWrite =>
            simp only [execInstr] at hstep
            split at hstep
            next hguard =>
              simp only [Option.some.injEq] at hstep
              subst hstep
              simp only [rdelta, wdelta] at hSR hSW
              have hWr0 : sumWr s.threads = 0 := by
                by_contra hne
                have h1 := hWR (by omega)
                omega
              have hRd0 : sumRd s.threads = 0 := by omega
              refine ⟨ctr_component s _ _ _ hCtr hSC
                (fun c => by cases c <;> simp [readCtr, cdelta]) rfl, ?_, ?_, ?_, hL, ?_⟩
              · show (-1 : Int) = sumRd (s.threads.set i (advance t pc))
                  - sumWr (s.threads.set i (advance t pc))
                omega
              · show sumWr (s.threads.set i (advance t pc)) ≤ 1
                omega
              · show 1 ≤ sumWr (s.threads.set i (advance t pc))
                  → sumRd (s.threads.set i (advance t pc)) = 0
                intro h1
                omega
              · exact TWF_set cfg s.threads i _ hTWF
                  (TWF_advance cfg t pc _ hTWFt hstt hins (by simp))
            next hguard => exact absurd hstep (by simp)
          | unlockWrite =>
            simp only [execInstr, Option.some.injEq] at hstep
            subst hstep
            simp only [rdelta, wdelta] at hSR hSW
            have hpb : pBal wdelta t = 1 := by
              simpa [pBal, prefixOf, hstt] using (relW_shape t pc _ hins (Or.inl rfl)).1
            have hwf := writeholder_facts cfg s ⟨hCtr, hO, hW1, hWR, hL, hTWF⟩ i t hti hpb
            obtain ⟨hwf1, hwf2, hwf3, hwf4, hwf5, hwf6⟩ := hwf
            refine ⟨ctr_component s _ _ _ hCtr hSC
              (fun c => by cases c <;> simp [readCtr, cdelta]) rfl, ?_, ?_, ?_, hL, ?_⟩
            · show (0 : Int) = sumRd (s.threads.set i (advance t pc))
                - sumWr (s.threads.set i (advance t pc))
              omega
            · show sumWr (s.threads.set i (advance t pc)) ≤ 1
              omega
            · show 1 ≤ sumWr (s.threads.set i (advance t pc))
                → sumRd (s.threads.set i (advance t pc)) = 0
              intro h1
              omega
            · exact TWF_set cfg s.threads i _ hTWF
                (TWF_advance cfg t pc _ hTWFt hstt hins (by simp))
          | downgrade =>
            simp only [execInstr, Option.some.injEq] at hstep
            subst hstep
            simp only [rdelta, wdelta] at hSR hSW
            have hpb : pBal wdelta t = 1 := by
              simpa [pBal, prefixOf, hstt] using (relW_shape t pc _ hins (Or.inr rfl)).1
            have hwf := writeholder_facts cfg s ⟨hCtr, hO, hW1, hWR, hL, hTWF⟩ i t hti hpb
            obtain ⟨hwf1, hwf2, hwf3, hwf4, hwf5, hwf6⟩ := hwf
            refine ⟨ctr_component s _ _ _ hCtr hSC
              (fun c => by cases c <;> simp [readCtr, cdelta]) rfl, ?_, ?_, ?_, hL, ?_⟩
            · show (1 : Int) = sumRd (s.threads.set i (advance t pc))
                - sumWr (s.threads.set i (advance t pc))
              omega
            · show sumWr (s.threads.set i (advance t pc)) ≤ 1
              omega
            · show 1 ≤ sumWr (s.threads.set i (advance t pc))
                → sumRd (s.threads.set i (advance t pc)) = 0
              intro h1
              omega
            · exact TWF_set cfg s.threads i _ hTWF
                (TWF_advance cfg t pc _ hTWFt hstt hins (by simp))
          | incCtr c0 =>
            simp only [execInstr, Option.some.injEq] at hstep
            subst hstep
            simp only [rdelta, wdelta] at hSR hSW
            cases c0 <;>
              refine ⟨ctr_component s _ _ _ hCtr hSC
                (fun c => by cases c <;> simp [readCtr, addCtr, cdelta]) rfl, ?_, ?_, ?_, hL,
                TWF_set cfg s.threads i _ hTWF
                  (TWF_advance cfg t pc _ hTWFt hstt hins (by simp))⟩ <;>
              first
                | (show s.occupancy = sumRd (s.threads.set i (advance t pc))
                      - sumWr (s.threads.set i (advance t pc))
                   omega)
                | (show sumWr (s.threads.set i (advance t pc)) ≤ 1
                   omega)
                | (show 1 ≤ sumWr (s.threads.set i (advance t pc))
                      → sumRd (s.threads.set i (advance t pc)) = 0
                   intro h1
                   have h2 := hWR (by omega)
                   omega)
          | decCtr c0 =>
            simp only [execInstr, Option.some.injEq] at hstep
            subst hstep
            simp only [rdelta, wdelta] at hSR hSW
            cases c0 <;>
              refine ⟨ctr_component s _ _ _ hCtr hSC
                (fun c => by cases c <;> simp [readCtr, addCtr, cdelta]) rfl, ?_, ?_, ?_, hL,
                TWF_set cfg s.threads i _ hTWF
                  (TWF_advance cfg t pc _ hTWFt hstt hins (by simp))⟩ <;>
              first
                | (show s.occupancy = sumRd (s.threads.set i (advance t pc))
                      - sumWr (s.threads.set i (advance t pc))
                   omega)
                | (show sumWr (s.threads.set i (advance t pc)) ≤ 1
                   omega)
                | (show 1 ≤ sumWr (s.threads.set i (advance t pc))
                      → sumRd (s.threads.set i (advance t pc)) = 0
                   intro h1
                   have h2 := hWR (by omega)
                   omega)
          | check c0 v fn =>
            simp only [execInstr, Option.some.injEq] at hstep
            subst hstep
            simp only [rdelta, wdelta] at hSR hSW
            have hlog : readCtr s c0 = v := by
              rcases check_shape t.kind pc c0 v fn hins with
                ⟨hc, hv, hcw, hw⟩ | ⟨hc, hv, hrd⟩ | ⟨hc, hv, hw, hcr⟩
              · subst hc
                subst hv
                have hpb : pBal wdelta t = 1 := by
                  simpa [pBal, prefixOf, hstt] using hw
                have hwf := writeholder_facts cfg s ⟨hCtr, hO, hW1, hWR, hL, hTWF⟩ i t hti hpb
                have hcb : cBal .writers t = 1 := by
                  simp [cBal, pBal, prefixOf, hstt, (full_facts t.kind).2.2.2, hcw]
                show s.writers = 1
                rw [hwf.2.2.2.1, hcb]
              · subst hc
                subst hv
                have hpb : pBal rdelta t = 1 := by
                  simpa [pBal, prefixOf, hstt] using hrd
                have hrf := readholder_facts cfg s ⟨hCtr, hO, hW1, hWR, hL, hTWF⟩ i t hti
                  (by omega)
                show s.writers = 0
                exact hrf.2.1
              · subst hc
                subst hv
                have hpb : pBal wdelta t = 1 := by
                  simpa [pBal, prefixOf, hstt] using hw
                have hwf := writeholder_facts cfg s ⟨hCtr, hO, hW1, hWR, hL, hTWF⟩ i t hti hpb
                have hcb : cBal .readers t = 0 := by
                  simp [cBal, pBal, prefixOf, hstt, (full_facts t.kind).2.2.1, hcr]
                show s.readers = 0
                rw [hwf.2.2.2.2.1, hcb]
            refine ⟨ctr_component s _ _ _ hCtr hSC
              (fun c => by cases c <;> simp [readCtr, cdelta]) rfl, ?_, ?_, ?_, ?_, ?_⟩
            · show s.occupancy = sumRd (s.threads.set i (advance t pc))
                - sumWr (s.threads.set i (advance t pc))
              omega
            · show sumWr (s.threads.set i (advance t pc)) ≤ 1
              omega
            · show 1 ≤ sumWr (s.threads.set i (advance t pc))
                → sumRd (s.threads.set i (advance t pc)) = 0
              intro h1
              have h2 := hWR (by omega)
              omega
            · show s.log ++ CHECKA (readCtr s c0) v (ctrName c0) fn = []
              rw [hlog]
              simp [CHECKA, hL]
            · exact TWF_set cfg s.threads i _ hTWF
                (TWF_advance cfg t pc _ hTWFt hstt hins (by simp))
          | yield =>
            simp only [execInstr] at hstep
            have hylast := yield_last t pc hins
            have hadv : advance t pc = { t with st := .atHead, iters := t.iters + 1 } := by
              unfold advance
              rw [if_neg (by omega)]
            have hy := hTWFt.2
            cases hds : cfg.do_sched with
            | false =>
              rw [hds] at hstep
              simp only [Bool.false_eq_true, if_false, Option.some.injEq] at hstep
              subst hstep
              refine inv_run_yield cfg s i t pc _ hInv hti hstt hins
                (fun f => rfl) (fun c => rfl) ?_
              rw [hadv]
              have hy0 : t.yields = 0 := by
                rw [hds] at hy
                simpa using hy
              constructor
              · intro pc' hpc'
                cases hpc'
              · show t.yields = if cfg.do_sched = true then t.iters + 1 else 0
                rw [hds]
                simpa using hy0
            | true =>
              rw [hds] at hstep
              simp only [if_true, Option.some.injEq] at hstep
              subst hstep
              refine inv_run_yield cfg s i t pc _ hInv hti hstt hins
                (fun f => pBal_yields f _ _) (fun c => cBal_yields c _ _) ?_
              have hy1 : t.yields = t.iters := by
                rw [hds] at hy
                simpa using hy
              constructor
              · intro pc' hpc'
                rw [hadv] at hpc'
                exact absurd hpc' (by simp)
              · simp [hadv, hds, hy1]

/-- Every spawned thread starts at its loop head with zero iterations and
zero yields. -/
theorem spawned_shape (cfg : Config) :
    ∀ t ∈ spawned cfg, t.st = TStatus.atHead ∧ t.iters = 0 ∧ t.yields = 0 := by
  intro t htm
  simp only [spawned, List.mem_flatMap] at htm
  obtain ⟨i, -, hmem⟩ := htm
  simp only [spawnAt, List.mem_append] at hmem
  rcases hmem with (hm | hm) | hm <;> split_ifs at hm <;> simp_all [mkThread]

/-- The initial state satisfies the invariant. -/
theorem inv_init (cfg : Config) : Inv cfg (init cfg) := by
  have hsh := spawned_shape cfg
  have hz : ∀ (f : Thread → Int), (∀ u ∈ spawned cfg, f u = 0) →
      ((spawned cfg).map f).sum = 0 := fun f h =>
    List.sum_eq_zero fun x hx => by
      obtain ⟨a, ha, rfl⟩ := List.mem_map.mp hx
      exact h a ha
  have hpz : ∀ (f : Instr → Int), ∀ u ∈ spawned cfg, pBal f u = 0 := by
    intro f u hu
    have h1 := (hsh u hu).1
    simp [pBal, prefixOf, h1, balOf]
  have hcz : ∀ (c : CtrId), ∀ u ∈ spawned cfg, cBal c u = 0 := by
    intro c u hu
    have h1 := (hsh u hu).1
    have h2 := (hsh u hu).2.1
    simp [cBal, pBal, prefixOf, h1, h2, balOf]
  have hrz : sumRd (spawned cfg) = 0 := hz _ (hpz rdelta)
  have hwz : sumWr (spawned cfg) = 0 := hz _ (hpz wdelta)
  refine ⟨?_, ?_, ?_, ?_, rfl, ?_⟩
  · intro c
    have h1 : sumC c (spawned cfg) = 0 := hz _ (hcz c)
    show readCtr (init cfg) c = sumC c (spawned cfg)
    rw [h1]
    cases c <;> rfl
  · show (0 : Int) = sumRd (spawned cfg) - sumWr (spawned cfg)
    omega
  · show sumWr (spawned cfg) ≤ 1
    omega
  · show 1 ≤ sumWr (spawned cfg) → sumRd (spawned cfg) = 0
    intro h1
    omega
  · show ∀ u ∈ spawned cfg, TWF cfg u
    intro u hu
    obtain ⟨h1, h2, h3⟩ := hsh u hu
    refine ⟨?_, ?_⟩
    · intro pc hpc
      rw [h1] at hpc
      cases hpc
    · rw [h3, h2]
      simp
  
/-- Every reachable state satisfies the invariant. -/
theorem inv_reach (cfg : Config) (s : State) (h : Reach cfg s) : Inv cfg s := by
  unfold Reach at h
  induction h with
  | refl => exact inv_init cfg
  | tail hsteps hstep ih => exact inv_step cfg _ _ ih hstep

/-- A mapped sum of pointwise zero values is zero. -/
theorem sum_map_zero (f : Thread → Int) (l : List Thread)
    (h : ∀ a ∈ l, f a = 0) : (l.map f).sum = 0 :=
  List.sum_eq_zero fun x hx => by
    obtain ⟨a, ha, rfl⟩ := List.mem_map.mp hx
    exact h a ha

/-- Pointwise equal functions give equal mapped sums. -/
theorem sum_map_congr (f g : Thread → Int) (l : List Thread)
    (h : ∀ a ∈ l, f a = g a) : (l.map f).sum = (l.map g).sum := by
  induction l with
  | nil => rfl
  | cons x xs ih =>
    simp only [List.map_cons, List.sum_cons]
    rw [h x (by simp), ih fun a ha => h a (by simp [ha])]

/-- In an invariant state with all threads exited, the lock is free. -/
theorem occ_zero_of_allDone (cfg : Config) (s : State) (hInv : Inv cfg s)
    (hd : AllDone s) : s.occupancy = 0 := by
  obtain ⟨hCtr, hO, hW1, hWR, hL, hTWF⟩ := id hInv
  have h1 : sumRd s.threads = 0 := sum_map_zero _ _ fun u hu => by
    have hx := hd u hu
    simp [pBal, prefixOf, hx, balOf]
  have h2 : sumWr s.threads = 0 := sum_map_zero _ _ fun u hu => by
    have hx := hd u hu
    simp [pBal, prefixOf, hx, balOf]
  omega

/-- The three taken-counters never decrease across any step. -/
theorem taken_mono (cfg : Config) (s s' : State) (h : Step cfg s s') :
    s.reads_taken ≤ s'.reads_taken ∧ s.writes_taken ≤ s'.writes_taken ∧
    s.downgrades_taken ≤ s'.downgrades_taken := by
  cases h with
  | stop => exact ⟨le_refl _, le_refl _, le_refl _⟩
  | thread _x i hstep =>
    unfold threadStep at hstep
    split at hstep
    · exact absurd hstep (by simp)
    next t hti =>
      split at hstep
      next => exact absurd hstep (by simp)
      next =>
        simp only [Option.some.injEq] at hstep
        subst hstep
        exact ⟨le_refl _, le_refl _, le_refl _⟩
      next pc hstt =>
        split at hstep
        · exact absurd hstep (by simp)
        next ins hins =>
          cases ins with
          | lockRead =>
            simp only [execInstr] at hstep
            split at hstep
            next =>
              simp only [Option.some.injEq] at hstep
              subst hstep
              exact ⟨le_refl _, le_refl _, le_refl _⟩
            next => exact absurd hstep (by simp)
          | lockWrite =>
            simp only [execInstr] at hstep
            split at hstep
            next =>
              simp only [Option.some.injEq] at hstep
              subst hstep
              exact ⟨le_refl _, le_refl _, le_refl _⟩
            next => exact absurd hstep (by simp)
          | unlockRead =>
            simp only [execInstr, Option.some.injEq] at hstep
            subst hstep
            exact ⟨le_refl _, le_refl _, le_refl _⟩
          | unlockWrite =>
            simp only [execInstr, Option.some.injEq] at hstep
            subst hstep
            exact ⟨le_refl _, le_refl _, le_refl _⟩
          | downgrade =>
            simp only [execInstr, Option.some.injEq] at hstep
            subst hstep
            exact ⟨le_refl _, le_refl _, le_refl _⟩
          | incCtr c0 =>
            simp only [execInstr, Option.some.injEq] at hstep
            subst hstep
            cases c0 <;> refine ⟨?_, ?_, ?_⟩ <;> simp [addCtr]
          | decCtr c0 =>
            simp only [execInstr, Option.some.injEq] at hstep
            subst hstep
            rcases dec_shape t pc c0 hins with h | h <;> subst h <;>
              exact ⟨le_refl _, le_refl _, le_refl _⟩
          | check c0 v fn =>
            simp only [execInstr, Option.some.injEq] at hstep
            subst hstep
            exact ⟨le_refl _, le_refl _, le_refl _⟩
          | yield =>
            simp only [execInstr, Option.some.injEq] at hstep
            subst hstep
            exact ⟨le_refl _, le_refl _, le_refl _⟩

/-- In an invariant state with all threads exited, each taken-counter equals
the corresponding number of completed operations. -/
theorem taken_done (cfg : Config) (s : State) (hInv : Inv cfg s) (hd : AllDone s) :
    s.reads_taken = (s.threads.map drDone).sum ∧
    s.writes_taken = (s.threads.map dwDone).sum ∧
    s.downgrades_taken = (s.threads.map dgwDone).sum := by
  obtain ⟨hCtr, hO, hW1, hWR, hL, hTWF⟩ := id hInv
  have f1 : (List.map (cdelta CtrId.reads_taken) (body Kind.reader)).sum = 1 := by decide
  have f2 : (List.map (cdelta CtrId.reads_taken) (body Kind.writer)).sum = 0 := by decide
  have f3 : (List.map (cdelta CtrId.reads_taken) (body Kind.downgrader)).sum = 0 := by decide
  have f4 : (List.map (cdelta CtrId.writes_taken) (body Kind.reader)).sum = 0 := by decide
  have f5 : (List.map (cdelta CtrId.writes_taken) (body Kind.writer)).sum = 1 := by decide
  have f6 : (List.map (cdelta CtrId.writes_taken) (body Kind.downgrader)).sum = 1 := by decide
  have f7 : (List.map (cdelta CtrId.downgrades_taken) (body Kind.reader)).sum = 0 := by decide
  have f8 : (List.map (cdelta CtrId.downgrades_taken) (body Kind.writer)).sum = 0 := by decide
  have f9 : (List.map (cdelta CtrId.downgrades_taken) (body Kind.downgrader)).sum = 1 := by
    decide
  have e1 : ∀ u ∈ s.threads, cBal .reads_taken u = drDone u := by
    intro u hu
    have hx := hd u hu
    cases hk : u.kind <;>
      simp [cBal, pBal, prefixOf, hx, drDone, hk, balOf, f1, f2, f3]
  have e2 : ∀ u ∈ s.threads, cBal .writes_taken u = dwDone u := by
    intro u hu
    have hx := hd u hu
    cases hk : u.kind <;>
      simp [cBal, pBal, prefixOf, hx, dwDone, hk, balOf, f4, f5, f6]
  have e3 : ∀ u ∈ s.threads, cBal .downgrades_taken u = dgwDone u := by
    intro u hu
    have hx := hd u hu
    cases hk : u.kind <;>
      simp [cBal, pBal, prefixOf, hx, dgwDone, hk, balOf, f7, f8, f9]
  refine ⟨?_, ?_, ?_⟩
  · have h1 : s.reads_taken = sumC .reads_taken s.threads := hCtr CtrId.reads_taken
    rw [h1]
    exact sum_map_congr _ _ _ e1
  · have h1 : s.writes_taken = sumC .writes_taken s.threads := hCtr CtrId.writes_taken
    rw [h1]
    exact sum_map_congr _ _ _ e2
  · have h1 : s.downgrades_taken = sumC .downgrades_taken s.threads :=
      hCtr CtrId.downgrades_taken
    rw [h1]
    exact sum_map_congr _ _ _ e3

/-- Counting over the flattened spawn loop splits per index. -/
theorem count_flat (cfg : Config) (p : Thread → Bool) (l : List Nat) :
    (l.flatMap (spawnAt cfg)).countP p = (l.map fun i => (spawnAt cfg i).countP p).sum := by
  induction l with
  | nil => rfl
  | cons x xs ih => simp [List.flatMap_cons, List.countP_append, ih]

/-- One spawn-loop index creates one thread of a kind exactly when the index
is below that kind's configured count. -/
theorem spawnAt_count (cfg : Config) (i : Nat) :
    ((spawnAt cfg i).countP (fun t => t.kind == Kind.reader)
      = if i < cfg.numrd then 1 else 0) ∧
    ((spawnAt cfg i).countP (fun t => t.kind == Kind.writer)
      = if i < cfg.numwr then 1 else 0) ∧
    ((spawnAt cfg i).countP (fun t => t.kind == Kind.downgrader)
      = if i < cfg.numdg then 1 else 0) := by
  unfold spawnAt
  refine ⟨?_, ?_, ?_⟩ <;> split_ifs <;> rfl

/-- Summing indicator values over a list counts the filtered elements. -/
theorem sum_ite_count (n : Nat) (l : List Nat) :
    (l.map fun i => if i < n then (1 : Nat) else 0).sum = (l.filter fun i => i < n).length := by
  induction l with
  | nil => rfl
  | cons x xs ih =>
    by_cases h : x < n
    · simp [h, ih, List.filter_cons]
      omega
    · simp [h, ih, List.filter_cons]

/-- The number of spawned threads of each kind is the number of spawn-loop
indices below both 20 and the configured count. -/
theorem spawned_count (cfg : Config) :
    (spawned cfg).countP (fun t => t.kind == Kind.reader) = (spawnIdx cfg.numrd).length ∧
    (spawned cfg).countP (fun t => t.kind == Kind.writer) = (spawnIdx cfg.numwr).length ∧
    (spawned cfg).countP (fun t => t.kind == Kind.downgrader) = (spawnIdx cfg.numdg).length := by
  refine ⟨?_, ?_, ?_⟩ <;>
    rw [spawned, count_flat] <;>
    first
      | (rw [List.map_congr_left fun i _ => (spawnAt_count cfg i).1, sum_ite_count]
         rfl)
      | (rw [List.map_congr_left fun i _ => (spawnAt_count cfg i).2.1, sum_ite_count]
         rfl)
      | (rw [List.map_congr_left fun i _ => (spawnAt_count cfg i).2.2, sum_ite_count]
         rfl)

/-- C10: `rwsem_init_module` always returns the fixed error code `-ENOANO`
(that is, -55), a nonzero failure code, alongside the printed report; the
module load therefore always reports failure and the module is discarded. -/
theorem C10_init_module_return (s : State) :
    (rwsem_init_module s).2 = -55 ∧ (rwsem_init_module s).2 ≠ 0 ∧
    (rwsem_init_module s).1 = report s := by
  refine ⟨rfl, ?_, rfl⟩
  show (-55 : Int) ≠ 0
  decide

/-- C9: at most 20 threads of each kind are ever spawned — the spawn loop
creates a thread only for indices below 20 and below the configured count —
while the join loop iterates over the full configured count; with more than
20 configured readers the join loop reaches index 20, which is outside the
20-entry completion array and is an index no spawned thread signals. -/
theorem C9_thread_cap (cfg : Config) (h : 20 < cfg.numrd) :
    (spawned cfg).countP (fun t => t.kind == Kind.reader) = 20 ∧
    (∀ m : Config,
      (spawned m).countP (fun t => t.kind == Kind.reader) = (spawnIdx m.numrd).length ∧
      (spawned m).countP (fun t => t.kind == Kind.writer) = (spawnIdx m.numwr).length ∧
      (spawned m).countP (fun t => t.kind == Kind.downgrader) = (spawnIdx m.numdg).length) ∧
    (∀ n : Nat, (spawnIdx n).length ≤ 20) ∧
    (∃ idx ∈ joinIdx cfg.numrd, comp_size ≤ idx ∧ idx ∉ spawnIdx cfg.numrd) := by
  refine ⟨?_, fun m => spawned_count m, ?_, ?_⟩
  · rw [(spawned_count cfg).1]
    have hall : (List.range 20).filter (fun i => i < cfg.numrd) = List.range 20 :=
      List.filter_eq_self.mpr fun a ha => by
        have := List.mem_range.mp ha
        simp
        omega
    show ((List.range 20).filter (fun i => i < cfg.numrd)).length = 20
    rw [hall]
    rfl
  · intro n
    show ((List.range 20).filter (fun i => i < n)).length ≤ 20
    have := List.length_filter_le (fun i => decide (i < n)) (List.range 20)
    simpa using this
  · refine ⟨20, List.mem_range.mpr h, le_refl _, ?_⟩
    intro hmem
    have h2 := (List.mem_filter.mp hmem).1
    have := List.mem_range.mp h2
    omega

/-- Witness for C9 at the concrete configuration `cfg21` (21 readers). -/
theorem C9_thread_cap_w :
    (spawned cfg21).countP (fun t => t.kind == Kind.reader) = 20 ∧
    (∀ m : Config,
      (spawned m).countP (fun t => t.kind == Kind.reader) = (spawnIdx m.numrd).length ∧
      (spawned m).countP (fun t => t.kind == Kind.writer) = (spawnIdx m.numwr).length ∧
      (spawned m).countP (fun t => t.kind == Kind.downgrader) = (spawnIdx m.numdg).length) ∧
    (∀ n : Nat, (spawnIdx n).length ≤ 20) ∧
    (∃ idx ∈ joinIdx cfg21.numrd, comp_size ≤ idx ∧ idx ∉ spawnIdx cfg21.numrd) :=
  C9_thread_cap cfg21 (by decide)

/-- C7: a `CHECKA(var – val)` observing a counter value different from the
expected one fails loudly and immediately: in the very same step the kernel
log gains exactly one message whose text names the mismatched counter, both
values, and the operation (`__func__`) at fault; the failure is never
deferred or swallowed. -/
theorem C7_misuse_fails_loudly (cfg : Config) (s : State) (i : Nat) (t : Thread) (pc : Nat)
    (c : CtrId) (v : Int) (fn : String)
    (h1 : s.threads[i]? = some t) (h2 : t.st = .running pc)
    (h3 : (body t.kind)[pc]? = some (.check c v fn)) (h4 : readCtr s c ≠ v) :
    CHECKA (readCtr s c) v (ctrName c) fn = [checkaMsg (ctrName c) v (readCtr s c) fn] ∧
    (∃ p, checkaMsg (ctrName c) v (readCtr s c) fn = p ++ fn) ∧
    threadStep cfg s i = some { s with
      log := s.log ++ [checkaMsg (ctrName c) v (readCtr s c) fn],
      threads := s.threads.set i (advance t pc) } := by
  refine ⟨by simp [CHECKA, h4], ⟨_, rfl⟩, ?_⟩
  simp [threadStep, h1, h2, h3, execInstr, CHECKA, h4]

/-- Witness for C7: a reader at dr's `CHECKA(writers, 0)` in a state whose
`writers` counter reads 5 produces the failure message naming `dr`. -/
theorem C7_misuse_fails_loudly_w :
    CHECKA (readCtr sBad .writers) 0 (ctrName .writers) "dr"
      = [checkaMsg (ctrName .writers) 0 (readCtr sBad .writers) "dr"] ∧
    (∃ p, checkaMsg (ctrName .writers) 0 (readCtr sBad .writers) "dr" = p ++ "dr") ∧
    threadStep cfg0 sBad 0 = some { sBad with
      log := sBad.log ++ [checkaMsg (ctrName .writers) 0 (readCtr sBad .writers) "dr"],
      threads := sBad.threads.set 0 (advance ⟨Kind.reader, TStatus.running 3, 0, 0⟩ 3) } :=
  C7_misuse_fails_loudly cfg0 sBad 0 ⟨Kind.reader, TStatus.running 3, 0, 0⟩ 3
    CtrId.writers 0 "dr" (by decide) rfl (by decide) (by decide)

/-- C5: thread loop structure: a reader body is exactly `dr(); ur();` (plus
the trailing `sched()`), a writer body exactly `dw(); uw();`, a downgrader
body exactly `dw(); dgw(); ur();`, and every iteration is gated on the
process-wide `do_stuff` flag: at the loop head a thread proceeds into the
body when the flag is set and exits otherwise. -/
theorem C5_thread_loop_structure (cfg : Config) (s : State) (i : Nat) (t : Thread)
    (h1 : s.threads[i]? = some t) (h2 : t.st = .atHead) :
    body .reader = drCode ++ urCode ++ [.yield] ∧
    body .writer = dwCode ++ uwCode ++ [.yield] ∧
    body .downgrader = dwCode ++ dgwCode ++ urCode ++ [.yield] ∧
    threadStep cfg s i = some { s with
      threads := s.threads.set i { t with st := if s.do_stuff then TStatus.running 0 else TStatus.done } } := by
  refine ⟨rfl, rfl, rfl, ?_⟩
  simp [threadStep, h1, h2]

/-- Witness for C5 at the initial state of the example configuration. -/
theorem C5_thread_loop_structure_w :
    body .reader = drCode ++ urCode ++ [.yield] ∧
    body .writer = dwCode ++ uwCode ++ [.yield] ∧
    body .downgrader = dwCode ++ dgwCode ++ urCode ++ [.yield] ∧
    threadStep cfg0 (init cfg0) 0 = some { init cfg0 with
      threads := (init cfg0).threads.set 0 { mkThread .reader with st := if (init cfg0).do_stuff then TStatus.running 0 else TStatus.done } } :=
  C5_thread_loop_structure cfg0 (init cfg0) 0 (mkThread .reader) (by decide) rfl

/-- C6: shutdown is idempotent: `stop_test` applied twice equals `stop_test`
applied once; it changes no counter, no occupancy, no log and no thread
state; a stop can be inserted at any reachable point (timer and the final
manual clear may both fire); and a post-join (all threads exited) state
still has occupancy 0. -/
theorem C6_idempotent_shutdown (cfg : Config) (s : State) (h : Reach cfg s) :
    stop_test (stop_test s) = stop_test s ∧
    (stop_test s).readers = s.readers ∧ (stop_test s).writers = s.writers ∧
    (stop_test s).reads_taken = s.reads_taken ∧
    (stop_test s).writes_taken = s.writes_taken ∧
    (stop_test s).downgrades_taken = s.downgrades_taken ∧
    (stop_test s).occupancy = s.occupancy ∧ (stop_test s).threads = s.threads ∧
    (stop_test s).log = s.log ∧
    Reach cfg (stop_test s) ∧
    (AllDone (stop_test s) → (stop_test s).occupancy = 0) := by
  refine ⟨rfl, rfl, rfl, rfl, rfl, rfl, rfl, rfl, rfl, ?_, ?_⟩
  · exact Relation.ReflTransGen.tail h (Step.stop s)
  · intro hd
    exact occ_zero_of_allDone cfg _
      (inv_reach cfg _ (Relation.ReflTransGen.tail h (Step.stop s))) hd

/-- Witness for C6 at the initial state of the example configuration. -/
theorem C6_idempotent_shutdown_w :
    stop_test (stop_test (init cfg0)) = stop_test (init cfg0) ∧
    (stop_test (init cfg0)).readers = (init cfg0).readers ∧
    (stop_test (init cfg0)).writers = (init cfg0).writers ∧
    (stop_test (init cfg0)).reads_taken = (init cfg0).reads_taken ∧
    (stop_test (init cfg0)).writes_taken = (init cfg0).writes_taken ∧
    (stop_test (init cfg0)).downgrades_taken = (init cfg0).downgrades_taken ∧
    (stop_test (init cfg0)).occupancy = (init cfg0).occupancy ∧
    (stop_test (init cfg0)).threads = (init cfg0).threads ∧
    (stop_test (init cfg0)).log = (init cfg0).log ∧
    Reach cfg0 (stop_test (init cfg0)) ∧
    (AllDone (stop_test (init cfg0)) → (stop_test (init cfg0)).occupancy = 0) :=
  C6_idempotent_shutdown cfg0 (init cfg0) Relation.ReflTransGen.refl

/-- C4: in every reachable state in which all spawned threads have signalled
completion, the lock's final occupancy is the free value 0, and the harness
report carries exactly that occupancy together with the three
taken-counters. -/
theorem C4_final_idle_report (cfg : Config) (s : State) (h : Reach cfg s)
    (hd : AllDone s) :
    s.occupancy = 0 ∧
    report s = ⟨0, s.reads_taken, s.writes_taken, s.downgrades_taken⟩ ∧
    (rwsem_init_module s).1 = report s := by
  have h0 := occ_zero_of_allDone cfg s (inv_reach cfg s h) hd
  refine ⟨h0, ?_, rfl⟩
  simp [report, h0]

/-- Witness for C4: a single-reader run stopped before its first iteration
reaches an all-done state with occupancy 0. -/
theorem C4_final_idle_report_w :
    rdDone.occupancy = 0 ∧
    report rdDone = ⟨0, rdDone.reads_taken, rdDone.writes_taken, rdDone.downgrades_taken⟩ ∧
    (rwsem_init_module rdDone).1 = report rdDone :=
  C4_final_idle_report cfgRd rdDone
    (Relation.ReflTransGen.tail
      (Relation.ReflTransGen.tail Relation.ReflTransGen.refl (Step.stop (init cfgRd)))
      (Step.thread (stop_test (init cfgRd)) rdDone 0 (by decide)))
    (fun t ht => by
      have h := List.mem_singleton.mp ht
      subst h
      rfl)

/-- C3: counter conservation: along every step of a run the three
taken-counters are monotonically non-decreasing, and once all threads have
completed, `reads_taken` equals the number of completed `dr()` calls,
`writes_taken` the number of completed `dw()` calls, and
`downgrades_taken` the number of completed `dgw()` calls. -/
theorem C3_counter_conservation (cfg : Config) (s : State) (h : Reach cfg s) :
    (∀ s', Step cfg s s' →
      s.reads_taken ≤ s'.reads_taken ∧ s.writes_taken ≤ s'.writes_taken ∧
      s.downgrades_taken ≤ s'.downgrades_taken) ∧
    (AllDone s →
      s.reads_taken = (s.threads.map drDone).sum ∧
      s.writes_taken = (s.threads.map dwDone).sum ∧
      s.downgrades_taken = (s.threads.map dgwDone).sum) :=
  ⟨fun s' hs => taken_mono cfg s s' hs,
   fun hd => taken_done cfg s (inv_reach cfg s h) hd⟩

/-- Witness for C3 at the initial state of the example configuration. -/
theorem C3_counter_conservation_w :
    (∀ s', Step cfg0 (init cfg0) s' →
      (init cfg0).reads_taken ≤ s'.reads_taken ∧
      (init cfg0).writes_taken ≤ s'.writes_taken ∧
      (init cfg0).downgrades_taken ≤ s'.downgrades_taken) ∧
    (AllDone (init cfg0) →
      (init cfg0).reads_taken = ((init cfg0).threads.map drDone).sum ∧
      (init cfg0).writes_taken = ((init cfg0).threads.map dwDone).sum ∧
      (init cfg0).downgrades_taken = ((init cfg0).threads.map dgwDone).sum) :=
  C3_counter_conservation cfg0 (init cfg0) Relation.ReflTransGen.refl

/-- C1: mutual exclusion: in every reachable state at most one write-holder
is counted (`writers ≤ 1`) and a counted reader excludes counted writers
(`readers ≥ 1 → writers = 0`); moreover every completed `dw()` — a writer
or downgrader at its dw checks (pc 3 or 4) — observes `writers = 1` and
`readers = 0`, and every completed `dr()` — a reader at its dr/ur checks
(pc 3 or 4) — observes `writers = 0`. -/
theorem C1_mutual_exclusion (cfg : Config) (s : State) (h : Reach cfg s) :
    s.writers ≤ 1 ∧ (1 ≤ s.readers → s.writers = 0) ∧
    (∀ (i : Nat) (t : Thread) (pc : Nat), s.threads[i]? = some t → t.st = .running pc →
      (((t.kind = .writer ∨ t.kind = .downgrader) ∧ (pc = 3 ∨ pc = 4)) →
        s.writers = 1 ∧ s.readers = 0) ∧
      ((t.kind = .reader ∧ (pc = 3 ∨ pc = 4)) → s.writers = 0)) := by
  have hInv := inv_reach cfg s h
  obtain ⟨hCtr, hO, hW1, hWR, hL, hTWF⟩ := id hInv
  have hB : s.writers = sumC .writers s.threads := hCtr CtrId.writers
  have hA : s.readers = sumC .readers s.threads := hCtr CtrId.readers
  have hble : sumC .writers s.threads ≤ sumWr s.threads :=
    sum_map_le _ _ _ fun b hb => (tBounds cfg b (hTWF b hb)).2.2.2.2.2.2.1
  have hnn := sums_nonneg cfg s.threads hTWF
  refine ⟨?_, ?_, ?_⟩
  · have := hnn.2.2.2
    omega
  · intro hr1
    have hpos : 0 < sumC .readers s.threads := by omega
    obtain ⟨j, a, hja, hfa⟩ := exists_pos_of_sum_pos (cBal .readers) s.threads hpos
    obtain ⟨b1, b2, b3, b4, b5, b6, b7, b8, b9⟩ := tBounds cfg a (hTWF a (List.getElem?_mem hja))
    by_cases hcase : 1 ≤ pBal rdelta a
    · exact (readholder_facts cfg s hInv j a hja hcase).2.1
    · have hwa : pBal wdelta a = 1 := by omega
      have hwf := writeholder_facts cfg s hInv j a hja hwa
      rw [hwf.2.2.2.1]
      omega
  · intro i t pc hti hst
    constructor
    · rintro ⟨hk, hpc⟩
      have e : pBal wdelta t = balOf wdelta ((body t.kind).take pc) := by
        simp [pBal, prefixOf, hst]
      have hw1 : pBal wdelta t = 1 := by
        rw [e]
        rcases hk with hk | hk <;> rw [hk] <;> rcases hpc with hpc | hpc <;> rw [hpc] <;> decide
      have hwf := writeholder_facts cfg s hInv i t hti hw1
      have ecw : cBal CtrId.writers t = balOf (cdelta CtrId.writers) ((body t.kind).take pc) := by
        simp [cBal, pBal, prefixOf, hst, (full_facts t.kind).2.2.2]
      have ecr : cBal CtrId.readers t = balOf (cdelta CtrId.readers) ((body t.kind).take pc) := by
        simp [cBal, pBal, prefixOf, hst, (full_facts t.kind).2.2.1]
      constructor
      · rw [hwf.2.2.2.1, ecw]
        rcases hk with hk | hk <;> rw [hk] <;> rcases hpc with hpc | hpc <;> rw [hpc] <;> decide
      · rw [hwf.2.2.2.2.1, ecr]
        rcases hk with hk | hk <;> rw [hk] <;> rcases hpc with hpc | hpc <;> rw [hpc] <;> decide
    · rintro ⟨hk, hpc⟩
      have e : pBal rdelta t = balOf rdelta ((body t.kind).take pc) := by
        simp [pBal, prefixOf, hst]
      have hr1 : 1 ≤ pBal rdelta t := by
        rw [e, hk]
        rcases hpc with hpc | hpc <;> rw [hpc] <;> decide
      exact (readholder_facts cfg s hInv i t hti hr1).2.1

/-- Witness for C1 at the initial state of the example configuration. -/
theorem C1_mutual_exclusion_w :
    (init cfg0).writers ≤ 1 ∧ (1 ≤ (init cfg0).readers → (init cfg0).writers = 0) ∧
    (∀ (i : Nat) (t : Thread) (pc : Nat), (init cfg0).threads[i]? = some t → t.st = .running pc →
      (((t.kind = .writer ∨ t.kind = .downgrader) ∧ (pc = 3 ∨ pc = 4)) →
        (init cfg0).writers = 1 ∧ (init cfg0).readers = 0) ∧
      ((t.kind = .reader ∧ (pc = 3 ∨ pc = 4)) → (init cfg0).writers = 0)) :=
  C1_mutual_exclusion cfg0 (init cfg0) Relation.ReflTransGen.refl

/-- C2: downgrade atomicity: while a downgrader is anywhere between its
successful `down_write` and its final `up_read` (pc 1 through 13), the lock
is never observably free (`occupancy ≠ 0`) and no thread whatsoever can
complete a `down_write`; at the instant before `downgrade_write` (pc 9) the
`writers` counter has already gone 1 → 0 and `readers` 0 → 1 while the lock
is still writer-held (`occupancy = -1`), and from the downgrade through the
release of read access the downgrader stays counted as a reader with no
counted writer. -/
theorem C2_downgrade_atomicity (cfg : Config) (s : State) (i : Nat) (t : Thread) (pc : Nat)
    (h : Reach cfg s) (h1 : s.threads[i]? = some t) (h2 : t.kind = .downgrader)
    (h3 : t.st = .running pc) (h4 : 1 ≤ pc) (h5 : pc ≤ 13) :
    s.occupancy ≠ 0 ∧
    (∀ (j : Nat) (u : Thread) (pc' : Nat), s.threads[j]? = some u → u.st = .running pc' →
      (body u.kind)[pc']? = some .lockWrite → threadStep cfg s j = none) ∧
    (pc = 7 → s.writers = 1 ∧ s.readers = 0) ∧
    (pc = 9 → s.writers = 0 ∧ s.readers = 1 ∧ s.occupancy = -1) ∧
    (9 ≤ pc → pc ≤ 12 → 1 ≤ s.readers ∧ s.writers = 0) := by
  have hInv := inv_reach cfg s h
  have e : pBal wdelta t = balOf wdelta ((body Kind.downgrader).take pc) := by
    simp [pBal, prefixOf, h3, h2]
  have er : pBal rdelta t = balOf rdelta ((body Kind.downgrader).take pc) := by
    simp [pBal, prefixOf, h3, h2]
  have ecw : cBal CtrId.writers t = balOf (cdelta CtrId.writers) ((body Kind.downgrader).take pc) := by
    simp [cBal, pBal, prefixOf, h3, h2,
      show balOf (cdelta CtrId.writers) (body Kind.downgrader) = 0 from by decide]
  have ecr : cBal CtrId.readers t = balOf (cdelta CtrId.readers) ((body Kind.downgrader).take pc) := by
    simp [cBal, pBal, prefixOf, h3, h2,
      show balOf (cdelta CtrId.readers) (body Kind.downgrader) = 0 from by decide]
  have hocc : s.occupancy ≠ 0 ∧ (pc = 7 → s.writers = 1 ∧ s.readers = 0) ∧
      (pc = 9 → s.writers = 0 ∧ s.readers = 1 ∧ s.occupancy = -1) ∧
      (9 ≤ pc → pc ≤ 12 → 1 ≤ s.readers ∧ s.writers = 0) := by
    interval_cases pc <;>
      first
        | (have hw : pBal wdelta t = 1 := by rw [e]; decide
           obtain ⟨w1, w2, w3, w4, w5, w6⟩ := writeholder_facts cfg s hInv i t h1 hw
           rw [ecw] at w4
           rw [ecr] at w5
           refine ⟨by omega, ?_, ?_, ?_⟩ <;>
             first
               | exact fun hp => absurd hp (by decide)
               | exact fun hp1 hp2 => absurd hp1 (by decide)
               | exact fun hp1 hp2 => absurd hp2 (by decide)
               | exact fun hp => ⟨by rw [w4]; decide, by rw [w5]; decide⟩
               | exact fun hp => ⟨by rw [w4]; decide, by rw [w5]; decide, w3⟩
               | exact fun hp1 hp2 => ⟨by rw [w5]; decide, by rw [w4]; decide⟩)
        | (have hr : 1 ≤ pBal rdelta t := by rw [er]; decide
           obtain ⟨r1, r2, r3, r4, r5⟩ := readholder_facts cfg s hInv i t h1 hr
           refine ⟨by omega, fun hp => absurd hp (by decide), fun hp => absurd hp (by decide),
             ?_⟩
           first
             | exact fun hp1 hp2 => absurd hp2 (by decide)
             | (refine fun hp1 hp2 => ⟨?_, r2⟩
                have hv : cBal CtrId.readers t = 1 := by rw [ecr]; decide
                omega))
  refine ⟨hocc.1, ?_, hocc.2.1, hocc.2.2.1, hocc.2.2.2⟩
  intro j u pc' hju hust hbody
  have hne := hocc.1
  simp [threadStep, hju, hust, hbody, execInstr, hne]

/-- Witness for C2: a single-downgrader run driven to just after its
`down_write` (pc 1). -/
theorem C2_downgrade_atomicity_w :
    dgS2.occupancy ≠ 0 ∧
    (∀ (j : Nat) (u : Thread) (pc' : Nat), dgS2.threads[j]? = some u → u.st = .running pc' →
      (body u.kind)[pc']? = some .lockWrite → threadStep cfgDg dgS2 j = none) ∧
    ((1 : Nat) = 7 → dgS2.writers = 1 ∧ dgS2.readers = 0) ∧
    ((1 : Nat) = 9 → dgS2.writers = 0 ∧ dgS2.readers = 1 ∧ dgS2.occupancy = -1) ∧
    (9 ≤ (1 : Nat) → (1 : Nat) ≤ 12 → 1 ≤ dgS2.readers ∧ dgS2.writers = 0) :=
  C2_downgrade_atomicity cfgDg dgS2 0 ⟨Kind.downgrader, TStatus.running 1, 0, 0⟩ 1
    (Relation.ReflTransGen.tail
      (Relation.ReflTransGen.tail Relation.ReflTransGen.refl
        (Step.thread (init cfgDg) dgS1 0 (by decide)))
      (Step.thread dgS1 dgS2 0 (by decide)))
    (by decide) rfl rfl (by decide) (by decide)

/-- C8: yield toggle: each loop body performs `sched()` exactly once, as its
last instruction (after each complete acquire/release cycle); executing it
changes only the threads component of the state — no counter, occupancy or
log value — sending the thread back to its loop head with one more
completed iteration and with its `schedule()` count incremented exactly
when `do_sched` is set and unchanged otherwise. -/
theorem C8_yield_toggle (cfg : Config) (s : State) (i : Nat) (t : Thread) (pc : Nat)
    (h1 : s.threads[i]? = some t) (h2 : t.st = .running pc)
    (h3 : (body t.kind)[pc]? = some .yield) :
    ((body t.kind).count .yield = 1 ∧ (body t.kind).getLast? = some .yield) ∧
    (∃ t2 : Thread, threadStep cfg s i = some { s with threads := s.threads.set i t2 } ∧
      t2.kind = t.kind ∧ t2.st = .atHead ∧ t2.iters = t.iters + 1 ∧
      t2.yields = t.yields + (if cfg.do_sched then 1 else 0)) := by
  have hylast := yield_last t pc h3
  have hlt : pc < (body t.kind).length := (List.getElem?_eq_some.mp h3).1
  have hadv : advance t pc = { t with st := .atHead, iters := t.iters + 1 } := by
    unfold advance
    rw [if_neg (by omega)]
  constructor
  · cases hk : t.kind <;> exact ⟨by decide, by decide⟩
  · cases hds : cfg.do_sched with
    | false =>
      refine ⟨advance t pc, ?_, ?_, ?_, ?_, ?_⟩
      · simp [threadStep, h1, h2, h3, execInstr, hds]
      · rw [hadv]
      · rw [hadv]
      · rw [hadv]
      · rw [hadv]
        simp
    | true =>
      refine ⟨{ advance t pc with yields := (advance t pc).yields + 1 }, ?_, ?_, ?_, ?_, ?_⟩
      · simp [threadStep, h1, h2, h3, execInstr, hds]
      · rw [hadv]
      · rw [hadv]
      · rw [hadv]
      · rw [hadv]
        simp

/-- Witness for C8: a reader about to run its trailing `sched()` with
`do_sched` disabled. -/
theorem C8_yield_toggle_w :
    ((body (⟨Kind.reader, TStatus.running 7, 0, 0⟩ : Thread).kind).count .yield = 1 ∧
      (body (⟨Kind.reader, TStatus.running 7, 0, 0⟩ : Thread).kind).getLast? = some .yield) ∧
    (∃ t2 : Thread, threadStep cfg0 yS 0 = some { yS with threads := yS.threads.set 0 t2 } ∧
      t2.kind = (⟨Kind.reader, TStatus.running 7, 0, 0⟩ : Thread).kind ∧ t2.st = .atHead ∧
      t2.iters = (⟨Kind.reader, TStatus.running 7, 0, 0⟩ : Thread).iters + 1 ∧
      t2.yields = (⟨Kind.reader, TStatus.running 7, 0, 0⟩ : Thread).yields
        + (if cfg0.do_sched then 1 else 0)) :=
  C8_yield_toggle cfg0 yS 0 ⟨Kind.reader, TStatus.running 7, 0, 0⟩ 7 (by decide) rfl (by decide)

end RwsemAny
